import Mathlib

/-
Verification of the inveniemus optimization core: the Metaheuristic engine
(iteration state machine: initiate / expand / evaluate / sieve / advance / run,
plus the nub diagnostic), its multi-objective analysis module (Pareto dominance
analysis, crowding distance, NSGA-II style non-dominated sort), and the
particle-swarm specialization (velocity and position update, swarm update).

Modelling conventions, matching the JavaScript source:
* Machine reals are modelled as rationals; crowding distances live in
  WithTop Rat because the source assigns Infinity to the per-objective
  extremes, and Infinity plus a finite value stays Infinity.
* Elements of a snapshot are identified by their position (index) in the
  snapshot list: the source mutates element objects by reference and stores
  references in the pareto lists, so reference identity equals index identity.
* Array.prototype.sort with a comparator is modelled by List.insertionSort
  with the relation comparator-result-nonpositive: ECMAScript guarantees the
  result is sorted with respect to a consistent comparator and (since ES2019)
  stable, which insertion sort realizes.
* Asynchronous steps (futures) are sequenced; the source joins every fan-out
  at one point per step, so the synchronous sequencing is behaviour-preserving.
* The external Randomness capability (spec section 6: scalar (max) gives a
  real in [0, max)) is modelled as a stream u of unit draws together with a
  cursor: draw number k with bound m yields u k * m.
* The statistics sink and lifecycle signals are observation side channels and
  are not modelled, except that the warning log of expand is counted, since
  claim C9 mentions it.  analyze only writes statistics (it reads state[0],
  which is why theorems about full runs assume a positive population size).
-/

universe u

variable {α : Type u}

namespace Inveniemus

/-! ## Multi-objective analysis module -/

/-- Pareto annotation attached to each element by paretoAnalysis: the elements
it dominates and the elements dominating it, both as snapshot indices (the
source stores object references; on a snapshot of distinct element objects a
reference is exactly an index). -/
structure ParetoSets where
  dominated : List Nat
  dominators : List Nat
deriving DecidableEq, Inhabited

def ParetoSets.empty : ParetoSets := ⟨[], []⟩

/-- Push index j at the end of the dominated list of entry i. -/
def pushDominated (ps : List ParetoSets) (i j : Nat) : List ParetoSets :=
  ps.set i ⟨(ps.getD i ParetoSets.empty).dominated ++ [j], (ps.getD i ParetoSets.empty).dominators⟩

/-- Push index j at the end of the dominators list of entry i. -/
def pushDominator (ps : List ParetoSets) (i j : Nat) : List ParetoSets :=
  ps.set i ⟨(ps.getD i ParetoSets.empty).dominated, (ps.getD i ParetoSets.empty).dominators ++ [j]⟩

/-- The unordered pairs visited by the double loop of paretoAnalysis: for
every i1 the inner loop runs over i2 = i1+1 .. len-1.  Each pair carries the
two indices together with the two elements. -/
def paretoPairsOf (l : List α) : List ((Nat × α) × (Nat × α)) :=
  l.enum.flatMap (fun p => (l.enum.drop (p.1 + 1)).map (fun q => (p, q)))

/-- One iteration of the inner loop of paretoAnalysis: query the comparator
once for the pair, record the domination in both elements when nonzero. -/
def paretoStep (dom : α → α → Int) (ps : List ParetoSets) (pq : (Nat × α) × (Nat × α)) :
    List ParetoSets :=
  let d := dom pq.1.2 pq.2.2
  if 0 < d then pushDominator (pushDominated ps pq.1.1 pq.2.1) pq.2.1 pq.1.1
  else if d < 0 then pushDominator (pushDominated ps pq.2.1 pq.1.1) pq.1.1 pq.2.1
  else ps

/-- paretoAnalysis: reset every element's pareto annotation, then visit each
unordered pair (i1 < i2) once, recording the bidirectional dominance relation
reported by the problem comparator. -/
def paretoAnalysis (dom : α → α → Int) (l : List α) : List ParetoSets :=
  (paretoPairsOf l).foldl (paretoStep dom) (List.replicate l.length ParetoSets.empty)

/-- Evaluation component k of the element at snapshot index i.  By the
spec's invariant (section 3) an evaluated element's evaluation vector has one
component per objective, so the defaults are never reached on a well-formed
snapshot; they only make the function total. -/
def evAt (evs : List (List ℚ)) (i k : Nat) : ℚ := (evs.getD i []).getD k 0

/-- Add a finite amount to the crowding distance stored at element index i
(Infinity plus a finite value stays Infinity, as in the source). -/
def cdAddAt (cds : List (WithTop ℚ)) (i : Nat) (x : ℚ) : List (WithTop ℚ) :=
  cds.set i (cds.getD i 0 + (x : WithTop ℚ))

/-- The two assignments es[0].crowdingDistance = Infinity and
es[es.length-1].crowdingDistance = Infinity of a crowdingDistance pass.  The
source indexes es[0] and es[es.length-1] unconditionally, which throws on an
empty ranking copy; the total function below assigns nothing in that case and
the Option wrapper crowdingDistanceRun records the failure (claim C10). -/
def cdSetExtremes (cds : List (WithTop ℚ)) (ord : List Nat) : List (WithTop ℚ) :=
  if ord.length = 0 then cds
  else (cds.set (ord.getD 0 0) ⊤).set (ord.getD (ord.length - 1) 0) ⊤

/-- The body of the interior loop of a crowdingDistance pass, at loop counter
j: for 1 <= j <= length-2, add to element es[j] the difference between the
evaluations of its two neighbours in the ranking copy. -/
def cdInteriorStep (evs : List (List ℚ)) (k : Nat) (ord : List Nat)
    (acc : List (WithTop ℚ)) (j : Nat) : List (WithTop ℚ) :=
  if 1 ≤ j ∧ j < ord.length - 1 then
    cdAddAt acc (ord.getD j 0) (evAt evs (ord.getD (j + 1) 0) k - evAt evs (ord.getD (j - 1) 0) k)
  else acc

/-- One objective pass of crowdingDistance: sort the private ranking copy
(a list of element indices) ascending by evaluation component k, assign the
two extremes distance Infinity, and add to each interior element the value
difference of its two neighbours. -/
def cdPass (evs : List (List ℚ)) (k : Nat) (st : List Nat × List (WithTop ℚ)) :
    List Nat × List (WithTop ℚ) :=
  let ord := List.insertionSort (fun a b => evAt evs a k ≤ evAt evs b k) st.1
  (ord, (List.range ord.length).foldl (cdInteriorStep evs k ord) (cdSetExtremes st.2 ord))

/-- The state of crowdingDistance after the first m objective passes: the
ranking copy (initially the identity order) and the per-element distances
(all reset to 0 before the first pass). -/
def cdStates (evs : List (List ℚ)) : Nat → List Nat × List (WithTop ℚ)
  | 0 => (List.range evs.length, List.replicate evs.length 0)
  | k + 1 => cdPass evs k (cdStates evs k)

/-- Final crowding distances after all count objective passes, indexed by the
original snapshot position. -/
def crowdingDistanceAux (evs : List (List ℚ)) (count : Nat) : List (WithTop ℚ) :=
  (cdStates evs count).2

/-- crowdingDistance with its failure mode: on an empty snapshot the source
throws inside the first objective pass (es[0] of an empty array); with zero
objectives the loop body never runs and nothing fails. -/
def crowdingDistanceRun (evs : List (List ℚ)) (count : Nat) : Option (List (WithTop ℚ)) :=
  if evs.length = 0 ∧ 0 < count then none else some (crowdingDistanceAux evs count)

/-- The position of the element with original index i in the ranking copy of
objective pass k (the copy sorted ascending by evaluation component k). -/
def cdPosOf (evs : List (List ℚ)) (k : Nat) (i : Nat) : Nat :=
  List.indexOf i ((cdStates evs (k + 1)).1)

/-- The contribution of objective pass k to the crowding distance of the
element with original index i: the evaluation difference of the two
neighbours of i in that pass's ranking copy. -/
def cdDiff (evs : List (List ℚ)) (k : Nat) (i : Nat) : ℚ :=
  evAt evs (((cdStates evs (k + 1)).1).getD (cdPosOf evs k i + 1) 0) k -
    evAt evs (((cdStates evs (k + 1)).1).getD (cdPosOf evs k i - 1) 0) k

/-- The order used by the final sort of nonDominatedSort, as the relation
comparator-result-nonpositive of the source comparator
(d1 - d2) or-else (c2 - c1): ascending dominator count, ties broken by
descending crowding distance (two infinite distances compare equal, as the
NaN comparator result is treated as 0 by Array.prototype.sort). -/
def ndsLE (x y : α × ParetoSets × WithTop ℚ) : Prop :=
  x.2.1.dominators.length < y.2.1.dominators.length ∨
    (x.2.1.dominators.length = y.2.1.dominators.length ∧ y.2.2 ≤ x.2.2)

instance : DecidableRel (α := α × ParetoSets × WithTop ℚ) ndsLE := fun x y => by
  unfold ndsLE; infer_instance

instance : IsTotal (α × ParetoSets × WithTop ℚ) ndsLE where
  total x y := by
    unfold ndsLE
    rcases lt_trichotomy x.2.1.dominators.length y.2.1.dominators.length with h | h | h
    · exact Or.inl (Or.inl h)
    · rcases le_total x.2.2 y.2.2 with h2 | h2
      · exact Or.inr (Or.inr ⟨h.symm, h2⟩)
      · exact Or.inl (Or.inr ⟨h, h2⟩)
    · exact Or.inr (Or.inl h)

instance : IsTrans (α × ParetoSets × WithTop ℚ) ndsLE where
  trans x y z := by
    unfold ndsLE
    rintro (h1 | ⟨h1, h1c⟩) (h2 | ⟨h2, h2c⟩)
    · exact Or.inl (h1.trans h2)
    · exact Or.inl (h2 ▸ h1)
    · exact Or.inl (h1 ▸ h2)
    · exact Or.inr ⟨h1.trans h2, h2c.trans h1c⟩

/-- nonDominatedSort: run paretoAnalysis, then crowdingDistance, then sort the
elements, each carrying its pareto annotation and crowding distance, ascending
by dominator count with ties broken by descending crowding distance. -/
def nonDominatedSortAnn (dom : α → α → Int) (evalOf : α → List ℚ) (count : Nat) (l : List α) :
    List (α × ParetoSets × WithTop ℚ) :=
  let pareto := paretoAnalysis dom l
  let cds := crowdingDistanceAux (l.map evalOf) count
  List.insertionSort ndsLE (l.zip (pareto.zip cds))

/-! ## Metaheuristic engine core -/

/-- An element as the engine core sees it: decision values and the evaluation
vector (empty before evaluation). -/
structure MElem where
  values : List ℚ
  evaluation : List ℚ
deriving DecidableEq, Inhabited

/-- The external Problem capability (spec section 6).  newElement stands for
the Element factory drawing random decision values: it is indexed by the
position of the draw in the random stream.  compare is the signed pairwise
comparator; domination is the signed domination it reports for a pair (the
source reads compare(a, b).domination).  evaluateElem is the per-element
evaluation; the source fans out all evaluations and joins once. -/
structure MProblem where
  objectivesCount : Nat
  newElement : Nat → MElem
  evaluateElem : MElem → MElem
  compare : MElem → MElem → Int
  domination : MElem → MElem → Int
  sufficientElements : List MElem → Bool

/-- The engine state: configuration (problem, size, steps, expansionRate),
the step counter (-1 before the first advance), the working population, the
random-stream cursor, and the count of warnings logged by expand. -/
structure Engine where
  problem : MProblem
  size : Nat
  steps : Nat
  expansionRate : ℚ
  step : Int
  state : List MElem
  rng : Nat
  warnCount : Nat

/-- initiate(size = this.size): replace the population with size freshly
generated random elements. -/
def Engine.initiate (e : Engine) (sz : Option Nat) : Engine :=
  let size := sz.getD e.size
  { e with state := (List.range size).map (fun i => e.problem.newElement (e.rng + i)),
           rng := e.rng + size }

/-- expansion(size): an array of floor(expansionRate * this.size) new random
elements (or the given size).  A negative floor makes the source throw a
RangeError on array construction, aborting the enclosing run; toNat keeps
this model total, so every theorem about a generated expansion carries a
0 <= expansionRate hypothesis (where toNat agrees with floor) and never
relies on the collapsed error path. -/
def Engine.expansion (e : Engine) (sz : Option Nat) : List MElem × Nat :=
  let size := match sz with
    | some s => s
    | none => (⌊e.expansionRate * (e.size : ℚ)⌋).toNat
  ((List.range size).map (fun i => e.problem.newElement (e.rng + i)), e.rng + size)

/-- expand(expansion?): append the supplied elements, or a freshly generated
expansion; when the expansion is empty, log a warning (counted in warnCount)
and leave the population untouched. -/
def Engine.expand (e : Engine) (x : Option (List MElem)) : Engine :=
  let exp := match x with
    | some l => l
    | none => (e.expansion none).1
  let rng' := match x with
    | some _ => e.rng
    | none => (e.expansion none).2
  { e with state := if exp.length < 1 then e.state else e.state ++ exp,
           rng := rng',
           warnCount := if exp.length < 1 then e.warnCount + 1 else e.warnCount }

/-- sort(elements): multi-objective (more than one objective) delegates to the
non-dominated sort (annotations live on the elements, projected back here);
single-objective sorts by the problem comparator and reverses, so the best
element ends first. -/
def Engine.sortElems (e : Engine) (l : List MElem) : List MElem :=
  if 1 < e.problem.objectivesCount then
    (nonDominatedSortAnn e.problem.domination MElem.evaluation e.problem.objectivesCount l).map
      (fun x => x.1)
  else (List.insertionSort (fun a b => e.problem.compare a b ≤ 0) l).reverse

/-- evaluate(): evaluate the whole population (the claims only exercise the
default whole-state call), then rank it with sort. -/
def Engine.evaluate (e : Engine) : Engine :=
  { e with state := e.sortElems (e.state.map e.problem.evaluateElem) }

/-- sieve(size = this.size): when the population exceeds the requested size,
cut it down --- the source slices to this.size, not to the requested size
(see claim C2). -/
def Engine.sieve (e : Engine) (sz : Option ℚ) : Engine :=
  let size : Int := match sz with
    | none => (e.size : Int)
    | some q => ⌊q⌋
  { e with state := if size < (e.state.length : Int) then e.state.take e.size else e.state }

/-- update(): expand, evaluate (the entire population), sieve. -/
def Engine.update (e : Engine) : Engine :=
  ((e.expand none).evaluate).sieve none

/-- finished(): step has reached the step limit, or the problem reports the
population sufficient. -/
def Engine.finished (e : Engine) : Bool :=
  decide ((e.steps : Int) ≤ e.step) || e.problem.sufficientElements e.state

/-- reset(): step back to -1 (statistics clearing is unmodelled). -/
def Engine.reset (e : Engine) : Engine :=
  { e with step := -1 }

/-- advance(): when not yet started, reset + initiate + evaluate, else update;
afterwards bump the step counter (to 0 on the first advance --- reset leaves
step negative in the first branch and update leaves it untouched in the
second, so the bump is equivalently conditioned on the incoming step) and run
analyze (statistics only, unmodelled).  The configuration fields are never
written by the workflow, which the explicit record spells out. -/
def Engine.advance (e : Engine) : Engine :=
  let e1 := if e.step < 0 then ((e.reset).initiate none).evaluate else e.update
  { problem := e.problem, size := e.size, steps := e.steps, expansionRate := e.expansionRate,
    step := if e.step < 0 then 0 else e.step + 1,
    state := e1.state, rng := e1.rng, warnCount := e1.warnCount }

/-- run() as the do-while of the source: advance once, repeat while not
finished.  Returns the final engine and the number of advance cycles
performed. -/
def Engine.runFrom (e : Engine) : Engine × Nat :=
  let e' := e.advance
  if e'.finished then (e', 1)
  else
    let r := Engine.runFrom e'
    (r.1, r.2 + 1)
termination_by e.steps + 1 - (e.step + 1).toNat
decreasing_by
  rename_i h
  have hstep : (Engine.advance e).step = if e.step < 0 then 0 else e.step + 1 := rfl
  have hsteps : (Engine.advance e).steps = e.steps := rfl
  simp only [Engine.finished, Bool.or_eq_true, decide_eq_true_eq, not_or] at h
  have h1 : ¬ (((Engine.advance e).steps : Int) ≤ (Engine.advance e).step) := h.1
  rw [hstep, hsteps] at h1
  by_cases hlt : e.step < 0
  · simp only [hlt, if_true] at h1
    have : (e.step + 1).toNat = 0 := by omega
    omega
  · simp only [hlt, if_false] at h1
    omega

/-- run(): resolves, once finished, to the element at population index 0 of
the final state. -/
def Engine.run (e : Engine) : (Engine × Nat) × Option MElem :=
  let r := Engine.runFrom e
  (r, r.1.state.head?)

/-- Decision vectors within precision: false when the lengths differ,
otherwise every component differs by at most precision in absolute value. -/
def nubEqVals (precision : ℚ) (v1 v2 : List ℚ) : Bool :=
  if v1.length ≠ v2.length then false
  else (v1.zip v2).all (fun q => decide (|q.1 - q.2| ≤ precision))

/-- Modelled from the spec: the nub combinator of the external iterable
library (creatartis-base), which the source's nub method delegates to, is not
part of this repository.  Spec section 4.1: remove elements whose decision
vectors are component-wise within precision of an already-kept element.  Each
kept element x therefore removes every later element equal to x under eq. -/
def nubBy (eq : α → α → Bool) : List α → List α → List α
  | kept, [] => kept.reverse
  | kept, x :: xs =>
    if kept.any (fun k => eq k x) then nubBy eq kept xs else nubBy eq (x :: kept) xs

/-- nub(precision = 0): replace the population with its nub under the
within-precision equality on decision vectors and return the resulting
size. -/
def Engine.nub (e : Engine) (precision : Option ℚ) : Engine × Nat :=
  let p := precision.getD 0
  let newState := nubBy (fun a b => nubEqVals p a.values b.values) [] e.state
  ({ e with state := newState }, newState.length)

/-! ## Particle-swarm specialization -/

/-- The part of an element the particle-swarm best references need: decision
values and evaluation. -/
structure Part where
  values : List ℚ
  evaluation : List ℚ
deriving DecidableEq, Inhabited

/-- A particle: an element extended with its velocity vector and its own
best-so-far position (the source stores an element reference; only its values
and evaluation are ever read). -/
structure PElem where
  values : List ℚ
  evaluation : List ℚ
  velocity : List ℚ
  localBest : Part
deriving DecidableEq, Inhabited

def PElem.toPart (e : PElem) : Part := ⟨e.values, e.evaluation⟩

/-- The Problem capability as the particle swarm uses it: evaluation as a
function of decision values (Element construction immediately followed by
evaluate), the signed comparator, its domination reading, and the
isBetterThan capability of elements. -/
structure PSProblem where
  objectivesCount : Nat
  evalValues : List ℚ → List ℚ
  compare : Part → Part → Int
  domination : Part → Part → Int
  isBetterThan : Part → Part → Bool

/-- Particle-swarm state: configuration (inertia, localAcceleration,
globalAcceleration, the per-dimension cardinalities of the element model),
the unit random stream u with its cursor rng (modelled from the spec's
Randomness capability: draw k scaled by m yields u k * m in [0, m)), the
population, and the lazily initialized swarm-wide best. -/
structure PS where
  problem : PSProblem
  model : List ℚ
  inertia : ℚ
  localAcceleration : ℚ
  globalAcceleration : ℚ
  u : Nat → ℚ
  rng : Nat
  state : List PElem
  globalBest : Option Part

/-- Modelled from the spec: the external clamp helper bounds a value into
[lo, hi]. -/
def clamp (value lo hi : ℚ) : ℚ := max lo (min hi value)

/-- nextVelocity(element, globalBest): draw two fresh scalar coefficients,
one bounded by localAcceleration and one by globalAcceleration, and combine
componentwise: velocity times inertia, plus localCoef times (localBest minus
position), plus globalCoef times (globalBest minus position).  Returns the
new velocity and the advanced random cursor (exactly two draws). -/
def PS.nextVelocity (ps : PS) (rng : Nat) (elem : PElem) (globalBest : Part) : List ℚ × Nat :=
  let localCoef := ps.u rng * ps.localAcceleration
  let globalCoef := ps.u (rng + 1) * ps.globalAcceleration
  (List.mapIdx (fun i v =>
      elem.velocity.getD i 0 * ps.inertia +
      localCoef * (elem.localBest.values.getD i 0 - v) +
      globalCoef * (globalBest.values.getD i 0 - v)) elem.values,
   rng + 2)

/-- nextElement(element, globalBest): candidate position = position plus the
next velocity, clamped per dimension to [0, cardinality - 1]; build and
evaluate the new element, attach the velocity, and inherit or replace the
personal best depending on isBetterThan. -/
def PS.nextElement (ps : PS) (rng : Nat) (elem : PElem) (globalBest : Part) : PElem × Nat :=
  let nv := ps.nextVelocity rng elem globalBest
  let nextValues := List.mapIdx (fun i v => clamp (v + nv.1.getD i 0) 0 (ps.model.getD i 0 - 1))
    elem.values
  let evaluated : Part := ⟨nextValues, ps.problem.evalValues nextValues⟩
  ({ values := nextValues,
     evaluation := evaluated.evaluation,
     velocity := nv.1,
     localBest := if ps.problem.isBetterThan evaluated elem.localBest then evaluated
                  else elem.localBest },
   nv.2)

/-- The concurrent dispatch of nextElement over the population: the random
draws happen in population order while the futures are created, hence the
cursor threads left to right. -/
def nextElemsAux (ps : PS) (gb : Part) (rng : Nat) : List PElem → List PElem × Nat
  | [] => ([], rng)
  | x :: xs =>
    let ne := ps.nextElement rng x gb
    let rest := nextElemsAux ps gb ne.2 xs
    (ne.1 :: rest.1, rest.2)

/-- The shared sort, over particles. -/
def PS.sortElems (ps : PS) (l : List PElem) : List PElem :=
  if 1 < ps.problem.objectivesCount then
    (nonDominatedSortAnn (fun a b => ps.problem.domination a.toPart b.toPart)
      (fun a => a.evaluation) ps.problem.objectivesCount l).map (fun x => x.1)
  else (List.insertionSort (fun a b => ps.problem.compare a.toPart b.toPart ≤ 0) l).reverse

/-- update() of the particle swarm: lazily initialize the global best to the
current best element, dispatch nextElement for every current element, rank
the results with the shared sort, replace the population, and replace the
global best only when the new best beats it according to the problem
comparator.  Neither expand nor sieve is invoked. -/
def PS.update (ps : PS) : PS :=
  let gb : Part := match ps.globalBest with
    | some g => g
    | none => (ps.state.headD default).toPart
  let ne := nextElemsAux ps gb ps.rng ps.state
  let sorted := ps.sortElems ne.1
  { ps with state := sorted,
            rng := ne.2,
            globalBest := some (if ps.problem.compare gb (sorted.headD default).toPart < 0 then
                (sorted.headD default).toPart
              else gb) }

/-! ## Concrete instances used by counterexamples and witnesses -/

/-- A minimal single-objective problem: the k-th random element carries value
k, evaluation copies the first value, the comparator is constant, and
sufficientElements never fires. -/
def trivialProblem : MProblem where
  objectivesCount := 1
  newElement := fun k => ⟨[(k : ℚ)], []⟩
  evaluateElem := fun el => ⟨el.values, [el.values.getD 0 0]⟩
  compare := fun _ _ => 0
  domination := fun _ _ => 0
  sufficientElements := fun _ => false

def engineC1 : Engine :=
  { problem := trivialProblem, size := 1, steps := 0, expansionRate := 1, step := -1,
    state := [], rng := 0, warnCount := 0 }

def engineC2 : Engine :=
  { problem := trivialProblem, size := 5, steps := 0, expansionRate := 1, step := -1,
    state := [⟨[0], []⟩, ⟨[1], []⟩, ⟨[2], []⟩], rng := 0, warnCount := 0 }

def engineC9 : Engine :=
  { problem := trivialProblem, size := 2, steps := 0, expansionRate := 0, step := -1,
    state := [⟨[0], []⟩], rng := 0, warnCount := 0 }

def engineC8 : Engine :=
  { problem := trivialProblem, size := 5, steps := 0, expansionRate := 1, step := -1,
    state := [⟨[0], []⟩, ⟨[0], []⟩, ⟨[3], []⟩], rng := 0, warnCount := 0 }

/-- The contribution of a processed prefix S of the pair list to the
dominated list of index i: pair (i, j) visited with positive domination, or
pair (j, i) visited with negative domination, put j there. -/
def ddomIn (dom : α → α → Int) (S : List ((Nat × α) × (Nat × α))) (i j : Nat) : Prop :=
  (∃ a b, ((i, a), (j, b)) ∈ S ∧ 0 < dom a b) ∨ (∃ b a, ((j, b), (i, a)) ∈ S ∧ dom b a < 0)

/-- The contribution of a processed prefix S of the pair list to the
dominators list of index i. -/
def drsIn (dom : α → α → Int) (S : List ((Nat × α) × (Nat × α))) (i j : Nat) : Prop :=
  (∃ a b, ((i, a), (j, b)) ∈ S ∧ dom a b < 0) ∨ (∃ b a, ((j, b), (i, a)) ∈ S ∧ 0 < dom b a)

def evsC5 : List (List ℚ) := [[0, 3], [1, 1], [2, 0]]

def problemC6 : PSProblem :=
  { objectivesCount := 1,
    evalValues := fun v => [v.getD 0 0],
    compare := fun a b => b.evaluation.getD 0 0 - a.evaluation.getD 0 0 |>.num.sign,
    domination := fun _ _ => 0,
    isBetterThan := fun a b => decide (a.evaluation.getD 0 0 < b.evaluation.getD 0 0) }

def elemC6 : PElem :=
  { values := [1, 2], evaluation := [1], velocity := [1, 0], localBest := ⟨[0, 0], [0]⟩ }

def psC6 : PS :=
  { problem := problemC6,
    model := [10, 10], inertia := 1, localAcceleration := 1/2, globalAcceleration := 1/2,
    u := fun _ => 1/2, rng := 0, state := [elemC6], globalBest := none }

def gbC6 : Part := ⟨[5, 5], [5]⟩

def psC7 : PS :=
  { problem := problemC6,
    model := [10], inertia := 0, localAcceleration := 1, globalAcceleration := 1,
    u := fun _ => 0, rng := 0,
    state := [{ values := [3], evaluation := [3], velocity := [1], localBest := ⟨[3], [3]⟩ }],
    globalBest := none }

def gb0C7 : Part := psC7.globalBest.getD ((psC7.state.headD default).toPart)

def nbC7 : Part := ((psC7.update).state.headD default).toPart

/-! ## Theorems -/

theorem advance_step (e : Engine) : (e.advance).step = if e.step < 0 then 0 else e.step + 1 := rfl

theorem advance_steps (e : Engine) : (e.advance).steps = e.steps := rfl

theorem advance_problem (e : Engine) : (e.advance).problem = e.problem := rfl

theorem runFrom_count_aux : ∀ (n : Nat) (e : Engine),
    e.steps + 1 - (e.step + 1).toNat = n →
    (∀ s, e.problem.sufficientElements s = false) → -1 ≤ e.step →
    (Engine.runFrom e).2 = max 1 n := by
  intro n
  induction n using Nat.strong_induction_on with
  | _ n ih =>
    intro e hn hsuff hstep
    rw [Engine.runFrom]
    have hfin : (e.advance).finished = decide ((e.steps : Int) ≤ (e.advance).step) := by
      simp only [Engine.finished, advance_steps, advance_problem, hsuff, Bool.or_false]
    rw [advance_step] at hfin
    by_cases hc : (e.steps : Int) ≤ (if e.step < 0 then 0 else e.step + 1)
    · have hft : (e.advance).finished = true := by rw [hfin]; exact decide_eq_true hc
      simp only [hft, if_true]
      show 1 = max 1 n
      by_cases hlt : e.step < 0
      · rw [if_pos hlt] at hc
        omega
      · rw [if_neg hlt] at hc
        omega
    · have hff : (e.advance).finished = false := by
        rw [hfin]; exact decide_eq_false hc
      simp only [hff, Bool.false_eq_true, if_false]
      have hsuff' : ∀ s, (e.advance).problem.sufficientElements s = false := by
        rw [advance_problem]; exact hsuff
      have hstep' : -1 ≤ (e.advance).step := by
        rw [advance_step]; by_cases hlt : e.step < 0 <;> simp [hlt] <;> omega
      have hlt' : (e.advance).steps + 1 - ((e.advance).step + 1).toNat < n := by
        rw [advance_step, advance_steps]
        by_cases hlt : e.step < 0
        · rw [if_pos hlt] at hc ⊢
          have h0 : (e.step + 1).toNat = 0 := by omega
          rw [if_pos hlt] at *
          omega
        · rw [if_neg hlt] at hc ⊢
          omega
      have := ih _ hlt' (e.advance) rfl hsuff' hstep'
      rw [this]
      have hpos : 1 ≤ (e.advance).steps + 1 - ((e.advance).step + 1).toNat := by
        rw [advance_step, advance_steps]
        by_cases hlt : e.step < 0
        · rw [if_pos hlt] at hc ⊢; omega
        · rw [if_neg hlt] at hc ⊢; omega
      rw [max_eq_right hpos]
      rw [advance_step, advance_steps] at *
      by_cases hlt : e.step < 0
      · rw [if_pos hlt] at *
        have h0 : (e.step + 1).toNat = 0 := by omega
        omega
      · rw [if_neg hlt] at *
        omega

/-- Claim C1, amended: for every configured step limit S, on an unstarted
engine (step = -1, positive configured size, nonnegative expansion rate ---
a negative rate makes the source throw a RangeError inside the first update)
whose problem never reports sufficientElements, run() performs exactly S + 1
advance() cycles (the initiating advance that reaches step 0, plus S update
advances reaching step S) before it resolves to the element at population
index 0. -/
theorem claim_C1_amended (e : Engine) (hstep : e.step = -1) (hsize : 1 ≤ e.size)
    (hrate : 0 ≤ e.expansionRate)
    (hsuff : ∀ s, e.problem.sufficientElements s = false) :
    (Engine.run e).1.2 = e.steps + 1 ∧ (Engine.run e).2 = (Engine.run e).1.1.state.head? := by
  refine ⟨?_, rfl⟩
  have h0 : (e.step + 1).toNat = 0 := by omega
  have := runFrom_count_aux (e.steps + 1) e (by omega) hsuff (by omega)
  have hmax : max 1 (e.steps + 1) = e.steps + 1 := by omega
  rw [hmax] at this
  exact this

/-- Claim C1, counterexample: an unstarted engine with step limit 0 and a
never-sufficient problem performs 1 advance cycle, not 0, so run() does not
perform exactly S advance cycles. -/
theorem claim_C1_counterexample : (Engine.run engineC1).1.2 ≠ engineC1.steps := by
  have h1 : (Engine.advance engineC1).finished = true := by decide
  show (Engine.runFrom engineC1).2 ≠ 0
  rw [Engine.runFrom]
  simp [h1]

/-- Claim C1 witness for the amended theorem: the engine with step limit 0
runs exactly 1 advance cycle and resolves to the head of the final state. -/
theorem claim_C1_amended_witness :
    (Engine.run engineC1).1.2 = engineC1.steps + 1 ∧
    (Engine.run engineC1).2 = (Engine.run engineC1).1.1.state.head? :=
  claim_C1_amended engineC1 rfl (by decide) (by norm_num [engineC1]) (fun _ => rfl)

/-- Claim C2: the source of sieve slices the state to this.size instead of
the requested size: on a ranked population of 3 elements with configured size
5, sieve(2) keeps all 3 elements unchanged, while the claim (and the method's
own documentation) requires the first min(3, 2) = 2 elements. -/
theorem claim_C2_bug :
    (engineC2.sieve (some 2)).state = engineC2.state ∧
    engineC2.state.length = 3 ∧ ¬ (engineC2.sieve (some 2)).state.length ≤ 2 := by
  refine ⟨?_, by decide, by decide⟩
  decide

/-- Claim C9: expand with an empty expansion (caller-supplied, or generated
--- the generated cases assume a nonnegative expansion rate, since a negative
rate makes the source throw a RangeError inside expansion() instead of
reaching the warning) counts one warning and leaves the population exactly as
it was (same elements, same order, same length), while a non-empty expansion
is appended after the existing elements. -/
theorem claim_C9 (e : Engine) :
    ((e.expand (some [])).state = e.state ∧
      (e.expand (some [])).warnCount = e.warnCount + 1) ∧
    (∀ l : List MElem, l ≠ [] →
      (e.expand (some l)).state = e.state ++ l ∧
      (e.expand (some l)).warnCount = e.warnCount) ∧
    (0 ≤ e.expansionRate → (e.expansion none).1 = [] →
      (e.expand none).state = e.state ∧ (e.expand none).warnCount = e.warnCount + 1) ∧
    (0 ≤ e.expansionRate → (e.expansion none).1 ≠ [] →
      (e.expand none).state = e.state ++ (e.expansion none).1) := by
  refine ⟨⟨rfl, rfl⟩, ?_, ?_, ?_⟩
  · intro l hl
    have hlen : ¬ l.length < 1 := by
      cases l with
      | nil => exact absurd rfl hl
      | cons a as => simp
    exact ⟨by simp [Engine.expand, hlen], by simp [Engine.expand, hlen]⟩
  · intro _ h
    constructor
    · simp [Engine.expand, h]
    · simp [Engine.expand, h]
  · intro _ h
    have hlen : ¬ (e.expansion none).1.length < 1 := by
      cases hx : (e.expansion none).1 with
      | nil => exact absurd hx h
      | cons a as => simp
    simp [Engine.expand, hlen]

theorem expansionC9_empty : (engineC9.expansion none).1 = [] := by
  have h : (⌊engineC9.expansionRate * (engineC9.size : ℚ)⌋).toNat = 0 := by
    norm_num [engineC9]
  simp [Engine.expansion, h]

/-- Claim C9 witness: concrete engine with expansion rate 0; supplied-empty,
generated-empty and non-empty expansions behave as stated. -/
theorem claim_C9_witness :
    ((engineC9.expand (some [])).state = engineC9.state ∧
      (engineC9.expand (some [])).warnCount = engineC9.warnCount + 1) ∧
    ((engineC9.expand (some [(⟨[7], []⟩ : MElem)])).state =
        engineC9.state ++ [(⟨[7], []⟩ : MElem)] ∧
      (engineC9.expand (some [(⟨[7], []⟩ : MElem)])).warnCount = engineC9.warnCount) ∧
    ((engineC9.expand none).state = engineC9.state ∧
      (engineC9.expand none).warnCount = engineC9.warnCount + 1) :=
  ⟨(claim_C9 engineC9).1,
   (claim_C9 engineC9).2.1 [(⟨[7], []⟩ : MElem)] (by decide),
   (claim_C9 engineC9).2.2.1 (by norm_num [engineC9]) expansionC9_empty⟩

theorem nubEqVals_true_iff (p : ℚ) (v w : List ℚ) :
    nubEqVals p v w = true ↔ v.length = w.length ∧ ∀ q ∈ v.zip w, |q.1 - q.2| ≤ p := by
  unfold nubEqVals
  by_cases h : v.length = w.length <;> simp [h]

theorem nubEqVals_symm_false (p : ℚ) (v w : List ℚ) (h : nubEqVals p v w = false) :
    nubEqVals p w v = false := by
  by_contra hb
  have ht : nubEqVals p w v = true := by
    cases hvw : nubEqVals p w v
    · exact absurd hvw hb
    · rfl
  rw [nubEqVals_true_iff] at ht
  have : nubEqVals p v w = true := by
    rw [nubEqVals_true_iff]
    refine ⟨ht.1.symm, ?_⟩
    intro q hq
    have hswap : q.swap ∈ w.zip v := by
      rw [← List.zip_swap]
      exact List.mem_map_of_mem Prod.swap hq
    have := ht.2 _ hswap
    simpa [Prod.swap, abs_sub_comm] using this
  rw [this] at h
  exact Bool.noConfusion h

theorem nubEqVals_zero_eq (v w : List ℚ) (h : nubEqVals 0 v w = true) : v = w := by
  rw [nubEqVals_true_iff] at h
  obtain ⟨hlen, hall⟩ := h
  apply List.ext_getElem hlen
  intro i h1 h2
  have hm : (v[i], w[i]) ∈ v.zip w := by
    have hz : i < (v.zip w).length := by
      rw [List.length_zip]
      omega
    have := List.getElem_zip (h := hz)
    rw [← this]
    exact List.getElem_mem hz
  have := hall _ hm
  simp only at this
  have : v[i] - w[i] = 0 := abs_nonpos_iff.mp this
  linarith

theorem nubBy_append (eq : α → α → Bool) :
    ∀ (l kept : List α), ∃ rest, nubBy eq kept l = kept.reverse ++ rest := by
  intro l
  induction l with
  | nil => intro kept; exact ⟨[], by simp [nubBy]⟩
  | cons x xs ih =>
    intro kept
    unfold nubBy
    by_cases h : kept.any (fun k => eq k x) = true
    · rw [if_pos h]
      exact ih kept
    · rw [if_neg h]
      obtain ⟨rest, hrest⟩ := ih (x :: kept)
      refine ⟨x :: rest, ?_⟩
      rw [hrest, List.reverse_cons, List.append_assoc]
      rfl

theorem nubBy_sublist (eq : α → α → Bool) :
    ∀ (l kept : List α), (nubBy eq kept l).Sublist (kept.reverse ++ l) := by
  intro l
  induction l with
  | nil =>
    intro kept
    unfold nubBy
    simp
  | cons x xs ih =>
    intro kept
    unfold nubBy
    by_cases h : kept.any (fun k => eq k x) = true
    · rw [if_pos h]
      exact (ih kept).trans (List.Sublist.append_left (List.sublist_cons_self x xs) _)
    · rw [if_neg h]
      have := ih (x :: kept)
      rw [List.reverse_cons, List.append_assoc] at this
      exact this

theorem nubBy_pairwise (eq : α → α → Bool) :
    ∀ (l kept : List α), List.Pairwise (fun a b => eq a b = false) kept.reverse →
      List.Pairwise (fun a b => eq a b = false) (nubBy eq kept l) := by
  intro l
  induction l with
  | nil => intro kept h; exact h
  | cons x xs ih =>
    intro kept h
    unfold nubBy
    by_cases hx : kept.any (fun k => eq k x) = true
    · rw [if_pos hx]
      exact ih kept h
    · rw [if_neg hx]
      apply ih (x :: kept)
      rw [List.reverse_cons, List.pairwise_append]
      refine ⟨h, List.pairwise_singleton _ _, ?_⟩
      intro a ha b hb
      rw [List.mem_singleton] at hb
      subst hb
      have hall : ∀ k ∈ kept, eq k b = false := by
        intro k hk
        by_contra hc
        apply hx
        rw [List.any_eq_true]
        refine ⟨k, hk, ?_⟩
        revert hc
        cases eq k b <;> simp
      exact hall a (List.mem_reverse.mp ha)

theorem nubBy_complete (eq : α → α → Bool) :
    ∀ (l kept : List α), ∀ y ∈ l,
      (∃ k ∈ nubBy eq kept l, eq k y = true) ∨ y ∈ nubBy eq kept l := by
  intro l
  induction l with
  | nil => intro kept y hy; exact absurd hy (List.not_mem_nil y)
  | cons x xs ih =>
    intro kept y hy
    unfold nubBy
    by_cases hx : kept.any (fun k => eq k x) = true
    · rw [if_pos hx]
      rcases List.mem_cons.mp hy with hyx | hyxs
      · subst hyx
        rw [List.any_eq_true] at hx
        obtain ⟨k, hk, hky⟩ := hx
        left
        refine ⟨k, ?_, hky⟩
        obtain ⟨rest, hrest⟩ := nubBy_append eq xs kept
        rw [hrest]
        exact List.mem_append_left _ (List.mem_reverse.mpr hk)
      · exact ih kept y hyxs
    · rw [if_neg hx]
      rcases List.mem_cons.mp hy with hyx | hyxs
      · subst hyx
        right
        obtain ⟨rest, hrest⟩ := nubBy_append eq xs (y :: kept)
        rw [hrest, List.reverse_cons]
        exact List.mem_append_left _ (List.mem_append_right _ (List.mem_singleton_self y))
      · exact ih (x :: kept) y hyxs

/-- Claim C8: for precision p at least 0, after nub(p) the population holds no
two elements whose decision vectors are component-wise within p of each
other; it is a sublist of (so never longer than) the input population; the
returned value is the resulting length; and for p = 0 only exact duplicates
of a kept decision vector are removed. -/
theorem claim_C8 (e : Engine) (p : ℚ) (hp : 0 ≤ p) :
    List.Pairwise (fun a b : MElem => nubEqVals p a.values b.values = false ∧
      nubEqVals p b.values a.values = false) (e.nub (some p)).1.state ∧
    (e.nub (some p)).1.state.Sublist e.state ∧
    (e.nub (some p)).2 = (e.nub (some p)).1.state.length ∧
    (p = 0 → ∀ x ∈ e.state, ∃ k ∈ (e.nub (some p)).1.state, x.values = k.values) := by
  have hstate : (e.nub (some p)).1.state =
      nubBy (fun a b : MElem => nubEqVals p a.values b.values) [] e.state := rfl
  refine ⟨?_, ?_, rfl, ?_⟩
  · rw [hstate]
    have := nubBy_pairwise (fun a b : MElem => nubEqVals p a.values b.values) e.state []
      (List.Pairwise.nil)
    exact this.imp (fun hab => ⟨hab, nubEqVals_symm_false p _ _ hab⟩)
  · rw [hstate]
    have := nubBy_sublist (fun a b : MElem => nubEqVals p a.values b.values) e.state []
    simpa using this
  · intro hp0 x hx
    rw [hstate]
    rcases nubBy_complete (fun a b : MElem => nubEqVals p a.values b.values) e.state [] x hx
      with ⟨k, hk, hkx⟩ | hmem
    · subst hp0
      exact ⟨k, hk, (nubEqVals_zero_eq _ _ hkx).symm⟩
    · exact ⟨x, hmem, rfl⟩

/-- Claim C8 witness: nub(0) on a population with an exact duplicate, via the
main theorem at precision 0. -/
theorem claim_C8_witness :
    List.Pairwise (fun a b : MElem => nubEqVals 0 a.values b.values = false ∧
      nubEqVals 0 b.values a.values = false) (engineC8.nub (some 0)).1.state ∧
    (engineC8.nub (some 0)).1.state.Sublist engineC8.state ∧
    (engineC8.nub (some 0)).2 = (engineC8.nub (some 0)).1.state.length ∧
    ((0 : ℚ) = 0 → ∀ x ∈ engineC8.state,
      ∃ k ∈ (engineC8.nub (some 0)).1.state, x.values = k.values) :=
  claim_C8 engineC8 0 le_rfl

theorem getD_set_sameIdx {β : Type v} (l : List β) (i : Nat) (v d : β) (h : i < l.length) :
    (l.set i v).getD i d = v := by
  rw [List.getD_eq_getElem?_getD, List.getElem?_set_self h]
  rfl

theorem getD_set_otherIdx {β : Type v} (l : List β) {i j : Nat} (v d : β) (h : i ≠ j) :
    (l.set i v).getD j d = l.getD j d := by
  rw [List.getD_eq_getElem?_getD, List.getElem?_set_ne h, ← List.getD_eq_getElem?_getD]

theorem getD_replicate_empty (n i : Nat) :
    (List.replicate n ParetoSets.empty).getD i ParetoSets.empty = ParetoSets.empty := by
  rw [List.getD_eq_getElem?_getD, List.getElem?_replicate]
  split <;> rfl

theorem pushDominated_length (ps : List ParetoSets) (i j : Nat) :
    (pushDominated ps i j).length = ps.length := by
  unfold pushDominated
  exact List.length_set ps i _

theorem pushDominator_length (ps : List ParetoSets) (i j : Nat) :
    (pushDominator ps i j).length = ps.length := by
  unfold pushDominator
  exact List.length_set ps i _

theorem pushDominated_getD_same (ps : List ParetoSets) (i j : Nat) (h : i < ps.length) :
    (pushDominated ps i j).getD i ParetoSets.empty =
      ⟨(ps.getD i ParetoSets.empty).dominated ++ [j],
        (ps.getD i ParetoSets.empty).dominators⟩ := by
  unfold pushDominated
  exact getD_set_sameIdx _ _ _ _ h

theorem pushDominated_getD_other (ps : List ParetoSets) {i m : Nat} (j : Nat) (h : i ≠ m) :
    (pushDominated ps i j).getD m ParetoSets.empty = ps.getD m ParetoSets.empty := by
  unfold pushDominated
  exact getD_set_otherIdx _ _ _ h

theorem pushDominator_getD_same (ps : List ParetoSets) (i j : Nat) (h : i < ps.length) :
    (pushDominator ps i j).getD i ParetoSets.empty =
      ⟨(ps.getD i ParetoSets.empty).dominated,
        (ps.getD i ParetoSets.empty).dominators ++ [j]⟩ := by
  unfold pushDominator
  exact getD_set_sameIdx _ _ _ _ h

theorem pushDominator_getD_other (ps : List ParetoSets) {i m : Nat} (j : Nat) (h : i ≠ m) :
    (pushDominator ps i j).getD m ParetoSets.empty = ps.getD m ParetoSets.empty := by
  unfold pushDominator
  exact getD_set_otherIdx _ _ _ h

theorem ddomIn_append (dom : α → α → Int) (S : List ((Nat × α) × (Nat × α)))
    (i1 i2 : Nat) (e1 e2 : α) (i j : Nat) :
    ddomIn dom (S ++ [((i1, e1), (i2, e2))]) i j ↔
      ddomIn dom S i j ∨ (i1 = i ∧ i2 = j ∧ 0 < dom e1 e2) ∨
        (i1 = j ∧ i2 = i ∧ dom e1 e2 < 0) := by
  unfold ddomIn
  simp only [List.mem_append, List.mem_singleton, Prod.mk.injEq]
  constructor
  · rintro (⟨a, b, (h | ⟨⟨h1, h2⟩, h3, h4⟩), hd⟩ | ⟨b, a, (h | ⟨⟨h1, h2⟩, h3, h4⟩), hd⟩)
    · exact Or.inl (Or.inl ⟨a, b, h, hd⟩)
    · subst h1; subst h2; subst h3; subst h4
      exact Or.inr (Or.inl ⟨rfl, rfl, hd⟩)
    · exact Or.inl (Or.inr ⟨b, a, h, hd⟩)
    · subst h1; subst h2; subst h3; subst h4
      exact Or.inr (Or.inr ⟨rfl, rfl, hd⟩)
  · rintro ((⟨a, b, h, hd⟩ | ⟨b, a, h, hd⟩) | ⟨h1, h2, hd⟩ | ⟨h1, h2, hd⟩)
    · exact Or.inl ⟨a, b, Or.inl h, hd⟩
    · exact Or.inr ⟨b, a, Or.inl h, hd⟩
    · subst h1; subst h2
      exact Or.inl ⟨e1, e2, Or.inr ⟨⟨rfl, rfl⟩, rfl, rfl⟩, hd⟩
    · subst h1; subst h2
      exact Or.inr ⟨e1, e2, Or.inr ⟨⟨rfl, rfl⟩, rfl, rfl⟩, hd⟩

theorem drsIn_append (dom : α → α → Int) (S : List ((Nat × α) × (Nat × α)))
    (i1 i2 : Nat) (e1 e2 : α) (i j : Nat) :
    drsIn dom (S ++ [((i1, e1), (i2, e2))]) i j ↔
      drsIn dom S i j ∨ (i1 = i ∧ i2 = j ∧ dom e1 e2 < 0) ∨
        (i1 = j ∧ i2 = i ∧ 0 < dom e1 e2) := by
  unfold drsIn
  simp only [List.mem_append, List.mem_singleton, Prod.mk.injEq]
  constructor
  · rintro (⟨a, b, (h | ⟨⟨h1, h2⟩, h3, h4⟩), hd⟩ | ⟨b, a, (h | ⟨⟨h1, h2⟩, h3, h4⟩), hd⟩)
    · exact Or.inl (Or.inl ⟨a, b, h, hd⟩)
    · subst h1; subst h2; subst h3; subst h4
      exact Or.inr (Or.inl ⟨rfl, rfl, hd⟩)
    · exact Or.inl (Or.inr ⟨b, a, h, hd⟩)
    · subst h1; subst h2; subst h3; subst h4
      exact Or.inr (Or.inr ⟨rfl, rfl, hd⟩)
  · rintro ((⟨a, b, h, hd⟩ | ⟨b, a, h, hd⟩) | ⟨h1, h2, hd⟩ | ⟨h1, h2, hd⟩)
    · exact Or.inl ⟨a, b, Or.inl h, hd⟩
    · exact Or.inr ⟨b, a, Or.inl h, hd⟩
    · subst h1; subst h2
      exact Or.inl ⟨e1, e2, Or.inr ⟨⟨rfl, rfl⟩, rfl, rfl⟩, hd⟩
    · subst h1; subst h2
      exact Or.inr ⟨e1, e2, Or.inr ⟨⟨rfl, rfl⟩, rfl, rfl⟩, hd⟩

theorem paretoStep_inv (dom : α → α → Int) (S : List ((Nat × α) × (Nat × α)))
    (ps : List ParetoSets) (i1 i2 : Nat) (e1 e2 : α)
    (h1 : i1 < ps.length) (h2 : i2 < ps.length) (hne : i1 ≠ i2)
    (hinv : ∀ i j,
      (j ∈ (ps.getD i ParetoSets.empty).dominated ↔ ddomIn dom S i j) ∧
      (j ∈ (ps.getD i ParetoSets.empty).dominators ↔ drsIn dom S i j)) :
    (paretoStep dom ps ((i1, e1), (i2, e2))).length = ps.length ∧
    ∀ i j,
      (j ∈ ((paretoStep dom ps ((i1, e1), (i2, e2))).getD i ParetoSets.empty).dominated ↔
        ddomIn dom (S ++ [((i1, e1), (i2, e2))]) i j) ∧
      (j ∈ ((paretoStep dom ps ((i1, e1), (i2, e2))).getD i ParetoSets.empty).dominators ↔
        drsIn dom (S ++ [((i1, e1), (i2, e2))]) i j) := by
  unfold paretoStep
  dsimp only
  rcases lt_trichotomy (dom e1 e2) 0 with hd | hd | hd
  · rw [if_neg (by omega), if_pos hd]
    refine ⟨by rw [pushDominator_length, pushDominated_length], ?_⟩
    intro i j
    have hgi2 : (pushDominator (pushDominated ps i2 i1) i1 i2).getD i2 ParetoSets.empty =
        ⟨(ps.getD i2 ParetoSets.empty).dominated ++ [i1],
          (ps.getD i2 ParetoSets.empty).dominators⟩ := by
      rw [pushDominator_getD_other _ _ hne, pushDominated_getD_same _ _ _ h2]
    have hgi1 : (pushDominator (pushDominated ps i2 i1) i1 i2).getD i1 ParetoSets.empty =
        ⟨(ps.getD i1 ParetoSets.empty).dominated,
          (ps.getD i1 ParetoSets.empty).dominators ++ [i2]⟩ := by
      rw [pushDominator_getD_same _ _ _ (by rw [pushDominated_length]; exact h1),
        pushDominated_getD_other _ _ (Ne.symm hne)]
    rw [ddomIn_append, drsIn_append]
    by_cases hii2 : i = i2
    · subst hii2
      rw [hgi2]
      constructor
      · rw [List.mem_append, List.mem_singleton]
        rw [(hinv i j).1]
        constructor
        · rintro (h | h)
          · exact Or.inl h
          · exact Or.inr (Or.inr ⟨by omega, by omega, hd⟩)
        · rintro (h | ⟨ha, hb, hc⟩ | ⟨ha, hb, hc⟩)
          · exact Or.inl h
          · exact False.elim (by omega)
          · exact Or.inr (by omega)
      · rw [(hinv i j).2]
        constructor
        · intro h
          exact Or.inl h
        · rintro (h | ⟨ha, hb, hc⟩ | ⟨ha, hb, hc⟩)
          · exact h
          · exact False.elim (by omega)
          · exact False.elim (by omega)
    · by_cases hii1 : i = i1
      · subst hii1
        rw [hgi1]
        constructor
        · rw [(hinv i j).1]
          constructor
          · intro h
            exact Or.inl h
          · rintro (h | ⟨ha, hb, hc⟩ | ⟨ha, hb, hc⟩)
            · exact h
            · exact False.elim (by omega)
            · exact False.elim (by omega)
        · rw [List.mem_append, List.mem_singleton]
          rw [(hinv i j).2]
          constructor
          · rintro (h | h)
            · exact Or.inl h
            · exact Or.inr (Or.inl ⟨by omega, by omega, hd⟩)
          · rintro (h | ⟨ha, hb, hc⟩ | ⟨ha, hb, hc⟩)
            · exact Or.inl h
            · exact Or.inr (by omega)
            · exact False.elim (by omega)
      · have hgo : (pushDominator (pushDominated ps i2 i1) i1 i2).getD i ParetoSets.empty =
            ps.getD i ParetoSets.empty := by
          rw [pushDominator_getD_other _ _ (fun h => hii1 h.symm),
            pushDominated_getD_other _ _ (fun h => hii2 h.symm)]
        rw [hgo]
        constructor
        · rw [(hinv i j).1]
          constructor
          · intro h
            exact Or.inl h
          · rintro (h | ⟨ha, hb, hc⟩ | ⟨ha, hb, hc⟩)
            · exact h
            · exact False.elim (by omega)
            · exact False.elim (by omega)
        · rw [(hinv i j).2]
          constructor
          · intro h
            exact Or.inl h
          · rintro (h | ⟨ha, hb, hc⟩ | ⟨ha, hb, hc⟩)
            · exact h
            · exact False.elim (by omega)
            · exact False.elim (by omega)
  · rw [if_neg (by omega), if_neg (by omega)]
    refine ⟨rfl, ?_⟩
    intro i j
    rw [ddomIn_append, drsIn_append]
    constructor
    · rw [(hinv i j).1]
      constructor
      · intro h
        exact Or.inl h
      · rintro (h | ⟨ha, hb, hc⟩ | ⟨ha, hb, hc⟩)
        · exact h
        · exact False.elim (by omega)
        · exact False.elim (by omega)
    · rw [(hinv i j).2]
      constructor
      · intro h
        exact Or.inl h
      · rintro (h | ⟨ha, hb, hc⟩ | ⟨ha, hb, hc⟩)
        · exact h
        · exact False.elim (by omega)
        · exact False.elim (by omega)
  · rw [if_pos hd]
    refine ⟨by rw [pushDominator_length, pushDominated_length], ?_⟩
    intro i j
    have hgi1 : (pushDominator (pushDominated ps i1 i2) i2 i1).getD i1 ParetoSets.empty =
        ⟨(ps.getD i1 ParetoSets.empty).dominated ++ [i2],
          (ps.getD i1 ParetoSets.empty).dominators⟩ := by
      rw [pushDominator_getD_other _ _ (Ne.symm hne), pushDominated_getD_same _ _ _ h1]
    have hgi2 : (pushDominator (pushDominated ps i1 i2) i2 i1).getD i2 ParetoSets.empty =
        ⟨(ps.getD i2 ParetoSets.empty).dominated,
          (ps.getD i2 ParetoSets.empty).dominators ++ [i1]⟩ := by
      rw [pushDominator_getD_same _ _ _ (by rw [pushDominated_length]; exact h2),
        pushDominated_getD_other _ _ hne]
    rw [ddomIn_append, drsIn_append]
    by_cases hii1 : i = i1
    · subst hii1
      rw [hgi1]
      constructor
      · rw [List.mem_append, List.mem_singleton]
        rw [(hinv i j).1]
        constructor
        · rintro (h | h)
          · exact Or.inl h
          · exact Or.inr (Or.inl ⟨by omega, by omega, hd⟩)
        · rintro (h | ⟨ha, hb, hc⟩ | ⟨ha, hb, hc⟩)
          · exact Or.inl h
          · exact Or.inr (by omega)
          · exact False.elim (by omega)
      · rw [(hinv i j).2]
        constructor
        · intro h
          exact Or.inl h
        · rintro (h | ⟨ha, hb, hc⟩ | ⟨ha, hb, hc⟩)
          · exact h
          · exact False.elim (by omega)
          · exact False.elim (by omega)
    · by_cases hii2 : i = i2
      · subst hii2
        rw [hgi2]
        constructor
        · rw [(hinv i j).1]
          constructor
          · intro h
            exact Or.inl h
          · rintro (h | ⟨ha, hb, hc⟩ | ⟨ha, hb, hc⟩)
            · exact h
            · exact False.elim (by omega)
            · exact False.elim (by omega)
        · rw [List.mem_append, List.mem_singleton]
          rw [(hinv i j).2]
          constructor
          · rintro (h | h)
            · exact Or.inl h
            · exact Or.inr (Or.inr ⟨by omega, by omega, hd⟩)
          · rintro (h | ⟨ha, hb, hc⟩ | ⟨ha, hb, hc⟩)
            · exact Or.inl h
            · exact False.elim (by omega)
            · exact Or.inr (by omega)
      · have hgo : (pushDominator (pushDominated ps i1 i2) i2 i1).getD i ParetoSets.empty =
            ps.getD i ParetoSets.empty := by
          rw [pushDominator_getD_other _ _ (fun h => hii2 h.symm),
            pushDominated_getD_other _ _ (fun h => hii1 h.symm)]
        rw [hgo]
        constructor
        · rw [(hinv i j).1]
          constructor
          · intro h
            exact Or.inl h
          · rintro (h | ⟨ha, hb, hc⟩ | ⟨ha, hb, hc⟩)
            · exact h
            · exact False.elim (by omega)
            · exact False.elim (by omega)
        · rw [(hinv i j).2]
          constructor
          · intro h
            exact Or.inl h
          · rintro (h | ⟨ha, hb, hc⟩ | ⟨ha, hb, hc⟩)
            · exact h
            · exact False.elim (by omega)
            · exact False.elim (by omega)

theorem paretoFold_inv (dom : α → α → Int) :
    ∀ (L S : List ((Nat × α) × (Nat × α))) (ps : List ParetoSets) (n : Nat),
      ps.length = n →
      (∀ p ∈ L, p.1.1 < p.2.1 ∧ p.2.1 < n) →
      (∀ i j,
        (j ∈ (ps.getD i ParetoSets.empty).dominated ↔ ddomIn dom S i j) ∧
        (j ∈ (ps.getD i ParetoSets.empty).dominators ↔ drsIn dom S i j)) →
      (L.foldl (paretoStep dom) ps).length = n ∧
      ∀ i j,
        (j ∈ ((L.foldl (paretoStep dom) ps).getD i ParetoSets.empty).dominated ↔
          ddomIn dom (S ++ L) i j) ∧
        (j ∈ ((L.foldl (paretoStep dom) ps).getD i ParetoSets.empty).dominators ↔
          drsIn dom (S ++ L) i j) := by
  intro L
  induction L with
  | nil =>
    intro S ps n hlen _ hinv
    rw [List.foldl_nil, List.append_nil]
    exact ⟨hlen, hinv⟩
  | cons p L ih =>
    intro S ps n hlen hb hinv
    obtain ⟨⟨i1, e1⟩, ⟨i2, e2⟩⟩ := p
    have hp := hb _ (List.mem_cons_self _ _)
    have hp1 : i1 < i2 := hp.1
    have hp2 : i2 < n := hp.2
    have step := paretoStep_inv dom S ps i1 i2 e1 e2 (by omega) (by omega) (by omega) hinv
    rw [List.foldl_cons]
    have hres := ih (S ++ [((i1, e1), (i2, e2))]) (paretoStep dom ps ((i1, e1), (i2, e2))) n
      (by rw [step.1]; exact hlen) (fun q hq => hb q (List.mem_cons_of_mem _ hq)) step.2
    rw [List.append_assoc] at hres
    exact hres

theorem mem_enum_iff (l : List α) (q : Nat × α) : q ∈ l.enum ↔ l[q.1]? = some q.2 := by
  rw [List.mem_iff_getElem?]
  constructor
  · rintro ⟨n, hn⟩
    rw [List.getElem?_enum] at hn
    cases hl : l[n]? with
    | none => rw [hl] at hn; exact Option.noConfusion hn
    | some b =>
      rw [hl] at hn
      have hq : (n, b) = q := Option.some.inj hn
      rw [← hq]
      exact hl
  · intro h
    exact ⟨q.1, by rw [List.getElem?_enum, h]; rfl⟩

theorem mem_enum_drop_iff (l : List α) (m : Nat) (q : Nat × α) :
    q ∈ l.enum.drop m ↔ m ≤ q.1 ∧ l[q.1]? = some q.2 := by
  rw [List.mem_iff_getElem?]
  constructor
  · rintro ⟨n, hn⟩
    rw [List.getElem?_drop, List.getElem?_enum] at hn
    cases hl : l[m + n]? with
    | none => rw [hl] at hn; exact Option.noConfusion hn
    | some b =>
      rw [hl] at hn
      have hq : (m + n, b) = q := Option.some.inj hn
      subst hq
      exact ⟨show m ≤ m + n by omega, hl⟩
  · rintro ⟨hm, h⟩
    refine ⟨q.1 - m, ?_⟩
    rw [List.getElem?_drop, List.getElem?_enum]
    have he : m + (q.1 - m) = q.1 := by omega
    rw [he, h]
    rfl

theorem mem_paretoPairsOf (l : List α) (p : (Nat × α) × (Nat × α)) :
    p ∈ paretoPairsOf l ↔
      p.1.1 < p.2.1 ∧ l[p.1.1]? = some p.1.2 ∧ l[p.2.1]? = some p.2.2 := by
  obtain ⟨q, r⟩ := p
  unfold paretoPairsOf
  rw [List.mem_flatMap]
  dsimp only
  constructor
  · rintro ⟨q', hq', hm⟩
    rw [List.mem_map] at hm
    obtain ⟨r', hr', hqr⟩ := hm
    simp only [Prod.mk.injEq] at hqr
    obtain ⟨rfl, rfl⟩ := hqr
    rw [mem_enum_iff] at hq'
    rw [mem_enum_drop_iff] at hr'
    exact ⟨by omega, hq', hr'.2⟩
  · rintro ⟨hlt, hq, hr⟩
    refine ⟨q, (mem_enum_iff l q).mpr hq, ?_⟩
    rw [List.mem_map]
    exact ⟨r, (mem_enum_drop_iff l (q.1 + 1) r).mpr ⟨by omega, hr⟩, rfl⟩

theorem paretoAnalysis_charD (dom : α → α → Int) (l : List α) (i j : Nat) :
    (j ∈ ((paretoAnalysis dom l).getD i ParetoSets.empty).dominated ↔
      (∃ a b, l[i]? = some a ∧ l[j]? = some b ∧
        ((i < j ∧ 0 < dom a b) ∨ (j < i ∧ dom b a < 0)))) ∧
    (j ∈ ((paretoAnalysis dom l).getD i ParetoSets.empty).dominators ↔
      (∃ a b, l[i]? = some a ∧ l[j]? = some b ∧
        ((i < j ∧ dom a b < 0) ∨ (j < i ∧ 0 < dom b a)))) := by
  have base : ∀ i' j',
      (j' ∈ ((List.replicate l.length ParetoSets.empty).getD i' ParetoSets.empty).dominated ↔
        ddomIn dom [] i' j') ∧
      (j' ∈ ((List.replicate l.length ParetoSets.empty).getD i' ParetoSets.empty).dominators ↔
        drsIn dom [] i' j') := by
    intro i' j'
    rw [getD_replicate_empty]
    unfold ddomIn drsIn ParetoSets.empty
    simp
  have hb : ∀ p ∈ paretoPairsOf l, p.1.1 < p.2.1 ∧ p.2.1 < l.length := by
    intro p hp
    rw [mem_paretoPairsOf] at hp
    refine ⟨hp.1, ?_⟩
    by_contra hc
    have h22 := hp.2.2
    rw [List.getElem?_eq_none (show l.length ≤ p.2.1 by omega)] at h22
    exact Option.noConfusion h22
  have main := paretoFold_inv dom (paretoPairsOf l) [] (List.replicate l.length ParetoSets.empty)
    l.length (List.length_replicate _ _) hb base
  have char := main.2 i j
  rw [List.nil_append] at char
  unfold paretoAnalysis
  rw [char.1, char.2]
  constructor
  · unfold ddomIn
    constructor
    · rintro (⟨a, b, hm, hd⟩ | ⟨b, a, hm, hd⟩)
      · rw [mem_paretoPairsOf] at hm
        exact ⟨a, b, hm.2.1, hm.2.2, Or.inl ⟨hm.1, hd⟩⟩
      · rw [mem_paretoPairsOf] at hm
        exact ⟨a, b, hm.2.2, hm.2.1, Or.inr ⟨hm.1, hd⟩⟩
    · rintro ⟨a, b, ha, hbb, (⟨hlt, hd⟩ | ⟨hlt, hd⟩)⟩
      · exact Or.inl ⟨a, b, (mem_paretoPairsOf l _).mpr ⟨hlt, ha, hbb⟩, hd⟩
      · exact Or.inr ⟨b, a, (mem_paretoPairsOf l _).mpr ⟨hlt, hbb, ha⟩, hd⟩
  · unfold drsIn
    constructor
    · rintro (⟨a, b, hm, hd⟩ | ⟨b, a, hm, hd⟩)
      · rw [mem_paretoPairsOf] at hm
        exact ⟨a, b, hm.2.1, hm.2.2, Or.inl ⟨hm.1, hd⟩⟩
      · rw [mem_paretoPairsOf] at hm
        exact ⟨a, b, hm.2.2, hm.2.1, Or.inr ⟨hm.1, hd⟩⟩
    · rintro ⟨a, b, ha, hbb, (⟨hlt, hd⟩ | ⟨hlt, hd⟩)⟩
      · exact Or.inl ⟨a, b, (mem_paretoPairsOf l _).mpr ⟨hlt, ha, hbb⟩, hd⟩
      · exact Or.inr ⟨b, a, (mem_paretoPairsOf l _).mpr ⟨hlt, hbb, ha⟩, hd⟩

/-- Claim C4: after paretoAnalysis on any snapshot, the recorded dominance
relation is symmetric across the two lists --- for every pair of indices
(i, j), j is in the dominators of i exactly when i is in the dominated of j
--- no element is in its own lists, and the recorded relation is
anti-symmetric: if i dominates j then j does not dominate i. -/
theorem claim_C4 (dom : α → α → Int) (l : List α) (i j : Nat) :
    (j ∈ ((paretoAnalysis dom l).getD i ParetoSets.empty).dominators ↔
      i ∈ ((paretoAnalysis dom l).getD j ParetoSets.empty).dominated) ∧
    i ∉ ((paretoAnalysis dom l).getD i ParetoSets.empty).dominators ∧
    i ∉ ((paretoAnalysis dom l).getD i ParetoSets.empty).dominated ∧
    (j ∈ ((paretoAnalysis dom l).getD i ParetoSets.empty).dominated →
      i ∉ ((paretoAnalysis dom l).getD j ParetoSets.empty).dominated) := by
  refine ⟨?_, ?_, ?_, ?_⟩
  · rw [(paretoAnalysis_charD dom l i j).2, (paretoAnalysis_charD dom l j i).1]
    constructor
    · rintro ⟨a, b, ha, hb, (⟨hlt, hd⟩ | ⟨hlt, hd⟩)⟩
      · exact ⟨b, a, hb, ha, Or.inr ⟨hlt, hd⟩⟩
      · exact ⟨b, a, hb, ha, Or.inl ⟨hlt, hd⟩⟩
    · rintro ⟨b, a, hb, ha, (⟨hlt, hd⟩ | ⟨hlt, hd⟩)⟩
      · exact ⟨a, b, ha, hb, Or.inr ⟨hlt, hd⟩⟩
      · exact ⟨a, b, ha, hb, Or.inl ⟨hlt, hd⟩⟩
  · rw [(paretoAnalysis_charD dom l i i).2]
    rintro ⟨a, b, ha, hb, (⟨hlt, hd⟩ | ⟨hlt, hd⟩)⟩ <;> omega
  · rw [(paretoAnalysis_charD dom l i i).1]
    rintro ⟨a, b, ha, hb, (⟨hlt, hd⟩ | ⟨hlt, hd⟩)⟩ <;> omega
  · rw [(paretoAnalysis_charD dom l i j).1, (paretoAnalysis_charD dom l j i).1]
    intro hm1 hm2
    obtain ⟨a, b, ha, hb, hcase1⟩ := hm1
    obtain ⟨a2, b2, ha2, hb2, hcase2⟩ := hm2
    rw [ha] at hb2
    rw [hb] at ha2
    have e1 : b = a2 := Option.some.inj ha2
    have e2 : a = b2 := Option.some.inj hb2
    subst e1
    subst e2
    rcases hcase1 with ⟨hlt, hd⟩ | ⟨hlt, hd⟩ <;>
      rcases hcase2 with ⟨hlt2, hd2⟩ | ⟨hlt2, hd2⟩ <;> omega

/-- Claim C3: after nonDominatedSort, the output (elements with their pareto
annotation and crowding distance) is ordered ascending by dominator count
with ties broken by descending crowding distance; in particular an element
with strictly fewer dominators never appears after one with more. -/
theorem claim_C3 (dom : α → α → Int) (evalOf : α → List ℚ) (count : Nat) (l : List α) :
    List.Pairwise (fun x y : α × ParetoSets × WithTop ℚ =>
        x.2.1.dominators.length < y.2.1.dominators.length ∨
          (x.2.1.dominators.length = y.2.1.dominators.length ∧ y.2.2 ≤ x.2.2))
      (nonDominatedSortAnn dom evalOf count l) ∧
    ∀ p q (hp : p < (nonDominatedSortAnn dom evalOf count l).length)
        (hq : q < (nonDominatedSortAnn dom evalOf count l).length), p < q →
      (nonDominatedSortAnn dom evalOf count l)[p].2.1.dominators.length ≤
        (nonDominatedSortAnn dom evalOf count l)[q].2.1.dominators.length := by
  have hs : List.Pairwise (ndsLE (α := α)) (nonDominatedSortAnn dom evalOf count l) :=
    List.sorted_insertionSort (ndsLE (α := α)) _
  constructor
  · exact hs
  · intro p q hp hq hpq
    have := List.pairwise_iff_getElem.mp hs p q hp hq hpq
    unfold ndsLE at this
    rcases this with h | ⟨h, _⟩
    · omega
    · omega

theorem cdAddAt_length (cds : List (WithTop ℚ)) (i : Nat) (x : ℚ) :
    (cdAddAt cds i x).length = cds.length := by
  unfold cdAddAt
  exact List.length_set ..

theorem cdSetExtremes_length (cds : List (WithTop ℚ)) (ord : List Nat) :
    (cdSetExtremes cds ord).length = cds.length := by
  unfold cdSetExtremes
  split
  · rfl
  · rw [List.length_set, List.length_set]

theorem cdInteriorFold_length (evs : List (List ℚ)) (k : Nat) (ord : List Nat) :
    ∀ (L : List Nat) (cds : List (WithTop ℚ)),
      (L.foldl (cdInteriorStep evs k ord) cds).length = cds.length := by
  intro L
  induction L with
  | nil => intro cds; rfl
  | cons x xs ih =>
    intro cds
    rw [List.foldl_cons, ih]
    unfold cdInteriorStep
    split
    · exact cdAddAt_length ..
    · rfl

theorem cdStates_cds_length (evs : List (List ℚ)) :
    ∀ m, ((cdStates evs m).2).length = evs.length := by
  intro m
  induction m with
  | zero => exact List.length_replicate _ _
  | succ k ih =>
    show ((cdPass evs k (cdStates evs k)).2).length = evs.length
    unfold cdPass
    dsimp only
    rw [cdInteriorFold_length, cdSetExtremes_length]
    exact ih

theorem cdStates_ord_perm (evs : List (List ℚ)) :
    ∀ m, ((cdStates evs m).1).Perm (List.range evs.length) := by
  intro m
  induction m with
  | zero => exact List.Perm.refl _
  | succ k ih =>
    show ((cdPass evs k (cdStates evs k)).1).Perm _
    unfold cdPass
    dsimp only
    exact (List.perm_insertionSort _ _).trans ih

/-- Claim C10: crowdingDistance requires a non-empty input: on every
non-empty snapshot it completes, assigning every element (one per snapshot
position) a crowding distance; on the empty snapshot with at least one
objective it fails (the source indexes the first and last positions of the
empty ranking copy), and that failure is unreachable under the non-empty
precondition. -/
theorem claim_C10 (evs : List (List ℚ)) (count : Nat) :
    (evs ≠ [] → ∃ cds, crowdingDistanceRun evs count = some cds ∧
      cds.length = evs.length) ∧
    (0 < count → crowdingDistanceRun [] count = none) := by
  constructor
  · intro hne
    have hlen : evs.length ≠ 0 := by
      cases evs with
      | nil => exact absurd rfl hne
      | cons a as => simp
    unfold crowdingDistanceRun
    rw [if_neg (by intro h; exact hlen h.1)]
    exact ⟨crowdingDistanceAux evs count, rfl, cdStates_cds_length evs count⟩
  · intro hc
    unfold crowdingDistanceRun
    rw [if_pos ⟨rfl, hc⟩]

/-- Claim C10 witness: a two-element snapshot with two objectives completes
with one distance per element, and the empty snapshot with one objective
fails. -/
theorem claim_C10_witness :
    (∃ cds, crowdingDistanceRun [[0, 1], [1, 0]] 2 = some cds ∧
      cds.length = ([[0, 1], [1, 0]] : List (List ℚ)).length) ∧
    crowdingDistanceRun [] 1 = none :=
  ⟨(claim_C10 [[0, 1], [1, 0]] 2).1 (by simp),
   (claim_C10 [] 1).2 (by omega)⟩

theorem getD_of_lt {β : Type v} (l : List β) (a : Nat) (d : β) (h : a < l.length) :
    l.getD a d = l[a] := by
  rw [List.getD_eq_getElem?_getD, List.getElem?_eq_getElem h]
  rfl

theorem getD_mem (ord : List Nat) (a : Nat) (h : a < ord.length) : ord.getD a 0 ∈ ord := by
  rw [getD_of_lt _ _ _ h]
  exact List.getElem_mem h

theorem nodup_getD_ne (ord : List Nat) (hnd : ord.Nodup) {a b : Nat}
    (ha : a < ord.length) (hb : b < ord.length) (hab : a ≠ b) :
    ord.getD a 0 ≠ ord.getD b 0 := by
  intro h
  rw [getD_of_lt _ _ _ ha, getD_of_lt _ _ _ hb] at h
  exact hab (List.Nodup.getElem_inj_iff hnd |>.mp h)

theorem cdInteriorStep_length (evs : List (List ℚ)) (k : Nat) (ord : List Nat)
    (acc : List (WithTop ℚ)) (j : Nat) :
    (cdInteriorStep evs k ord acc j).length = acc.length := by
  unfold cdInteriorStep
  split
  · exact cdAddAt_length ..
  · rfl

theorem cdSetExtremes_getD_other (cds : List (WithTop ℚ)) (ord : List Nat) (i : Nat)
    (h0 : ord.getD 0 0 ≠ i) (h1 : ord.getD (ord.length - 1) 0 ≠ i) :
    (cdSetExtremes cds ord).getD i 0 = cds.getD i 0 := by
  unfold cdSetExtremes
  split
  · rfl
  · rw [getD_set_otherIdx _ _ _ h1, getD_set_otherIdx _ _ _ h0]

theorem cdSetExtremes_getD_top (cds : List (WithTop ℚ)) (ord : List Nat) (i : Nat)
    (hi : i < cds.length) (h : cds.getD i 0 = ⊤) :
    (cdSetExtremes cds ord).getD i 0 = ⊤ := by
  unfold cdSetExtremes
  split
  · exact h
  · by_cases h1 : ord.getD (ord.length - 1) 0 = i
    · rw [h1, getD_set_sameIdx _ _ _ _ (by rw [List.length_set]; exact hi)]
    · rw [getD_set_otherIdx _ _ _ h1]
      by_cases h0 : ord.getD 0 0 = i
      · rw [h0, getD_set_sameIdx _ _ _ _ hi]
      · rw [getD_set_otherIdx _ _ _ h0]
        exact h

theorem cdSetExtremes_getD_extremes (cds : List (WithTop ℚ)) (ord : List Nat)
    (hne : ord.length ≠ 0) (hb0 : ord.getD 0 0 < cds.length)
    (hb1 : ord.getD (ord.length - 1) 0 < cds.length) :
    (cdSetExtremes cds ord).getD (ord.getD 0 0) 0 = ⊤ ∧
    (cdSetExtremes cds ord).getD (ord.getD (ord.length - 1) 0) 0 = ⊤ := by
  unfold cdSetExtremes
  rw [if_neg hne]
  constructor
  · by_cases he : ord.getD (ord.length - 1) 0 = ord.getD 0 0
    · rw [← he, getD_set_sameIdx _ _ _ _ (by rw [List.length_set]; exact hb1)]
    · rw [getD_set_otherIdx _ _ _ he, getD_set_sameIdx _ _ _ _ hb0]
  · rw [getD_set_sameIdx _ _ _ _ (by rw [List.length_set]; exact hb1)]

theorem cdInteriorFold_getD_top (evs : List (List ℚ)) (k : Nat) (ord : List Nat) (i : Nat) :
    ∀ (L : List Nat) (cds : List (WithTop ℚ)), i < cds.length → cds.getD i 0 = ⊤ →
      (L.foldl (cdInteriorStep evs k ord) cds).getD i 0 = ⊤ := by
  intro L
  induction L with
  | nil => intro cds _ h; exact h
  | cons x xs ih =>
    intro cds hi h
    rw [List.foldl_cons]
    apply ih
    · rw [cdInteriorStep_length]
      exact hi
    · unfold cdInteriorStep
      split
      · unfold cdAddAt
        by_cases he : ord.getD x 0 = i
        · rw [he, getD_set_sameIdx _ _ _ _ hi, h, WithTop.top_add]
        · rw [getD_set_otherIdx _ _ _ he]
          exact h
      · exact h

theorem cdInteriorFold_getD_notMem (evs : List (List ℚ)) (k : Nat) (ord : List Nat) (i : Nat) :
    ∀ (L : List Nat) (cds : List (WithTop ℚ)),
      (∀ j ∈ L, 1 ≤ j ∧ j < ord.length - 1 → ord.getD j 0 ≠ i) →
      (L.foldl (cdInteriorStep evs k ord) cds).getD i 0 = cds.getD i 0 := by
  intro L
  induction L with
  | nil => intro cds _; rfl
  | cons x xs ih =>
    intro cds hL
    rw [List.foldl_cons, ih _ (fun j hj => hL j (List.mem_cons_of_mem _ hj))]
    unfold cdInteriorStep
    split
    · rename_i hg
      unfold cdAddAt
      rw [getD_set_otherIdx _ _ _ (hL x (List.mem_cons_self _ _) hg)]
    · rfl

theorem cdInteriorFold_getD_hit (evs : List (List ℚ)) (k : Nat) (ord : List Nat)
    (hnd : ord.Nodup) (j : Nat) (hj1 : 1 ≤ j) (hj2 : j < ord.length - 1) :
    ∀ (L : List Nat) (cds : List (WithTop ℚ)), L.Nodup → j ∈ L →
      ord.getD j 0 < cds.length →
      (L.foldl (cdInteriorStep evs k ord) cds).getD (ord.getD j 0) 0 =
        cds.getD (ord.getD j 0) 0 +
          ((evAt evs (ord.getD (j + 1) 0) k - evAt evs (ord.getD (j - 1) 0) k : ℚ) : WithTop ℚ) := by
  intro L
  induction L with
  | nil => intro cds _ hj _; exact absurd hj (List.not_mem_nil j)
  | cons x xs ih =>
    intro cds hnodup hjL hb
    rw [List.foldl_cons]
    by_cases hx : x = j
    · subst hx
      have hnotin : x ∉ xs := (List.nodup_cons.mp hnodup).1
      rw [cdInteriorFold_getD_notMem evs k ord _ xs _ ?_]
      · unfold cdInteriorStep
        rw [if_pos ⟨hj1, hj2⟩]
        unfold cdAddAt
        rw [getD_set_sameIdx _ _ _ _ hb]
      · intro j' hj' hg'
        exact nodup_getD_ne ord hnd (by omega) (by omega) (fun he => hnotin (he ▸ hj'))
    · have hjxs : j ∈ xs := by
        rcases List.mem_cons.mp hjL with h | h
        · exact absurd h.symm hx
        · exact h
      rw [ih _ (List.nodup_cons.mp hnodup).2 hjxs (by rw [cdInteriorStep_length]; exact hb)]
      congr 1
      unfold cdInteriorStep
      split
      · rename_i hg
        unfold cdAddAt
        rw [getD_set_otherIdx _ _ _ (nodup_getD_ne ord hnd (by omega) (by omega) hx)]
      · rfl

theorem cdStates_ord_length (evs : List (List ℚ)) (m : Nat) :
    ((cdStates evs m).1).length = evs.length := by
  rw [(cdStates_ord_perm evs m).length_eq, List.length_range]

theorem cdStates_ord_nodup (evs : List (List ℚ)) (m : Nat) :
    ((cdStates evs m).1).Nodup :=
  (cdStates_ord_perm evs m).nodup_iff.mpr (List.nodup_range _)

theorem cdStates_ord_mem_lt (evs : List (List ℚ)) (m a : Nat)
    (h : a < ((cdStates evs m).1).length) :
    ((cdStates evs m).1).getD a 0 < evs.length := by
  have hmem := getD_mem _ _ h
  have := (cdStates_ord_perm evs m).mem_iff.mp hmem
  exact List.mem_range.mp this

theorem cdStates_top_persist (evs : List (List ℚ)) (i : Nat) (hi : i < evs.length) :
    ∀ m m', m ≤ m' → (cdStates evs m).2.getD i 0 = ⊤ → (cdStates evs m').2.getD i 0 = ⊤ := by
  intro m m' hle h
  induction m' with
  | zero =>
    have : m = 0 := by omega
    rw [this] at h
    exact h
  | succ k ih =>
    rcases Nat.lt_or_ge m (k + 1) with hlt | hge
    · have hk := ih (by omega)
      show ((cdPass evs k (cdStates evs k)).2).getD i 0 = ⊤
      unfold cdPass
      dsimp only
      apply cdInteriorFold_getD_top
      · rw [cdSetExtremes_length, cdStates_cds_length]
        exact hi
      · apply cdSetExtremes_getD_top
        · rw [cdStates_cds_length]
          exact hi
        · exact hk
    · have he : m = k + 1 := by omega
      rw [← he]
      exact h

theorem cdPass_ord_eq (evs : List (List ℚ)) (k : Nat) :
    (cdStates evs (k + 1)).1 =
      List.insertionSort (fun a b => evAt evs a k ≤ evAt evs b k) ((cdStates evs k).1) := rfl

theorem cdPass_cds_eq (evs : List (List ℚ)) (k : Nat) :
    (cdStates evs (k + 1)).2 =
      (List.range ((cdStates evs (k + 1)).1).length).foldl
        (cdInteriorStep evs k ((cdStates evs (k + 1)).1))
        (cdSetExtremes ((cdStates evs k).2) ((cdStates evs (k + 1)).1)) := rfl

theorem cdPass_ord_sorted (evs : List (List ℚ)) (k : Nat) :
    List.Pairwise (fun a b => evAt evs a k ≤ evAt evs b k) ((cdStates evs (k + 1)).1) := by
  haveI : IsTotal Nat (fun a b => evAt evs a k ≤ evAt evs b k) := ⟨fun a b => le_total _ _⟩
  haveI : IsTrans Nat (fun a b => evAt evs a k ≤ evAt evs b k) :=
    ⟨fun a b c h1 h2 => le_trans h1 h2⟩
  rw [cdPass_ord_eq]
  exact List.sorted_insertionSort _ _

theorem cdPass_head_min (evs : List (List ℚ)) (k : Nat) (hn : 0 < evs.length) :
    ∀ m < evs.length, evAt evs (((cdStates evs (k + 1)).1).getD 0 0) k ≤ evAt evs m k := by
  intro m hm
  have hlen := cdStates_ord_length evs (k + 1)
  have h0 : (0 : Nat) < ((cdStates evs (k + 1)).1).length := by omega
  have hmem : m ∈ (cdStates evs (k + 1)).1 :=
    (cdStates_ord_perm evs (k + 1)).mem_iff.mpr (List.mem_range.mpr hm)
  obtain ⟨q, hq, hqe⟩ := List.getElem_of_mem hmem
  rw [getD_of_lt _ _ _ h0, ← hqe]
  rcases Nat.eq_zero_or_pos q with hq0 | hq0
  · subst hq0
    exact le_refl _
  · exact List.pairwise_iff_getElem.mp (cdPass_ord_sorted evs k) 0 q h0 hq hq0

theorem cdPass_last_max (evs : List (List ℚ)) (k : Nat) (hn : 0 < evs.length) :
    ∀ m < evs.length,
      evAt evs m k ≤ evAt evs (((cdStates evs (k + 1)).1).getD (((cdStates evs (k + 1)).1).length - 1) 0) k := by
  intro m hm
  have hlen := cdStates_ord_length evs (k + 1)
  have hl : ((cdStates evs (k + 1)).1).length - 1 < ((cdStates evs (k + 1)).1).length := by omega
  have hmem : m ∈ (cdStates evs (k + 1)).1 :=
    (cdStates_ord_perm evs (k + 1)).mem_iff.mpr (List.mem_range.mpr hm)
  obtain ⟨q, hq, hqe⟩ := List.getElem_of_mem hmem
  rw [getD_of_lt _ _ _ hl, ← hqe]
  rcases Nat.lt_or_ge q (((cdStates evs (k + 1)).1).length - 1) with hq1 | hq1
  · exact List.pairwise_iff_getElem.mp (cdPass_ord_sorted evs k) q _ hq hl hq1
  · have : q = ((cdStates evs (k + 1)).1).length - 1 := by omega
    subst this
    exact le_refl _

theorem getD_replicate_zero (n j : Nat) : (List.replicate n (0 : WithTop ℚ)).getD j 0 = 0 := by
  rw [List.getD_eq_getElem?_getD, List.getElem?_replicate]
  split <;> rfl

theorem cd_extreme_top (evs : List (List ℚ)) (count : Nat) (hn : 0 < evs.length) :
    ∀ k < count,
      (crowdingDistanceAux evs count).getD (((cdStates evs (k + 1)).1).getD 0 0) 0 = ⊤ ∧
      (crowdingDistanceAux evs count).getD
        (((cdStates evs (k + 1)).1).getD (((cdStates evs (k + 1)).1).length - 1) 0) 0 = ⊤ := by
  intro k hk
  have hlen := cdStates_ord_length evs (k + 1)
  have h0 : (0 : Nat) < ((cdStates evs (k + 1)).1).length := by omega
  have hl : ((cdStates evs (k + 1)).1).length - 1 < ((cdStates evs (k + 1)).1).length := by omega
  have hb0 : ((cdStates evs (k + 1)).1).getD 0 0 < evs.length :=
    cdStates_ord_mem_lt evs (k + 1) 0 h0
  have hb1 : ((cdStates evs (k + 1)).1).getD (((cdStates evs (k + 1)).1).length - 1) 0 <
      evs.length := cdStates_ord_mem_lt evs (k + 1) _ hl
  have hstep : (cdStates evs (k + 1)).2.getD (((cdStates evs (k + 1)).1).getD 0 0) 0 = ⊤ ∧
      (cdStates evs (k + 1)).2.getD
        (((cdStates evs (k + 1)).1).getD (((cdStates evs (k + 1)).1).length - 1) 0) 0 = ⊤ := by
    rw [cdPass_cds_eq]
    have hext := cdSetExtremes_getD_extremes ((cdStates evs k).2) ((cdStates evs (k + 1)).1)
      (by omega) (by rw [cdStates_cds_length]; exact hb0) (by rw [cdStates_cds_length]; exact hb1)
    constructor
    · apply cdInteriorFold_getD_top
      · rw [cdSetExtremes_length, cdStates_cds_length]
        exact hb0
      · exact hext.1
    · apply cdInteriorFold_getD_top
      · rw [cdSetExtremes_length, cdStates_cds_length]
        exact hb1
      · exact hext.2
  exact ⟨cdStates_top_persist evs _ hb0 (k + 1) count (by omega) hstep.1,
    cdStates_top_persist evs _ hb1 (k + 1) count (by omega) hstep.2⟩

theorem cd_interior_sum (evs : List (List ℚ)) (i : Nat) (hi : i < evs.length) :
    ∀ m, (∀ k < m, 1 ≤ cdPosOf evs k i ∧ cdPosOf evs k i < evs.length - 1) →
      (cdStates evs m).2.getD i 0 = ((∑ k ∈ Finset.range m, cdDiff evs k i : ℚ) : WithTop ℚ) := by
  intro m
  induction m with
  | zero =>
    intro _
    show (List.replicate evs.length (0 : WithTop ℚ)).getD i 0 = _
    rw [getD_replicate_zero, Finset.sum_range_zero, WithTop.coe_zero]
  | succ k ih =>
    intro hint
    have hk := hint k (by omega)
    have hord_len := cdStates_ord_length evs (k + 1)
    have hmem : i ∈ (cdStates evs (k + 1)).1 :=
      (cdStates_ord_perm evs (k + 1)).mem_iff.mpr (List.mem_range.mpr hi)
    have hposlt : cdPosOf evs k i < ((cdStates evs (k + 1)).1).length :=
      List.indexOf_lt_length.mpr hmem
    have hgetpos : ((cdStates evs (k + 1)).1).getD (cdPosOf evs k i) 0 = i := by
      rw [getD_of_lt _ _ _ hposlt]
      exact List.getElem_indexOf hposlt
    have hcds : (cdStates evs (k + 1)).2.getD i 0 =
        (cdStates evs k).2.getD i 0 + ((cdDiff evs k i : ℚ) : WithTop ℚ) := by
      rw [cdPass_cds_eq]
      have hhit := cdInteriorFold_getD_hit evs k ((cdStates evs (k + 1)).1)
        (cdStates_ord_nodup evs (k + 1)) (cdPosOf evs k i) hk.1 (by omega)
        (List.range ((cdStates evs (k + 1)).1).length)
        (cdSetExtremes ((cdStates evs k).2) ((cdStates evs (k + 1)).1))
        (List.nodup_range _) (List.mem_range.mpr hposlt)
        (by rw [cdSetExtremes_length, cdStates_cds_length, hgetpos]; exact hi)
      rw [hgetpos] at hhit
      rw [hhit]
      congr 1
      apply cdSetExtremes_getD_other
      · rw [← hgetpos]
        exact nodup_getD_ne _ (cdStates_ord_nodup evs (k + 1)) (by omega) hposlt (by omega)
      · rw [← hgetpos]
        exact nodup_getD_ne _ (cdStates_ord_nodup evs (k + 1)) (by omega) hposlt (by omega)
    rw [hcds, ih (fun m hm => hint m (by omega)), Finset.sum_range_succ, WithTop.coe_add]

theorem cd_const_ord (evs : List (List ℚ)) (hid : ∀ v ∈ evs, ∀ w ∈ evs, v = w) :
    ∀ m, (cdStates evs m).1 = List.range evs.length := by
  intro m
  induction m with
  | zero => rfl
  | succ k ih =>
    rw [cdPass_ord_eq, ih]
    apply List.Sorted.insertionSort_eq
    apply List.pairwise_iff_getElem.mpr
    intro p q hp hq _
    rw [List.getElem_range, List.getElem_range]
    have hlp : p < evs.length := by
      rw [List.length_range] at hp
      exact hp
    have hlq : q < evs.length := by
      rw [List.length_range] at hq
      exact hq
    have heq : evs.getD p [] = evs.getD q [] := by
      apply hid
      · rw [getD_of_lt _ _ _ hlp]
        exact List.getElem_mem hlp
      · rw [getD_of_lt _ _ _ hlq]
        exact List.getElem_mem hlq
    unfold evAt
    rw [heq]

theorem cd_const_interior (evs : List (List ℚ)) (hid : ∀ v ∈ evs, ∀ w ∈ evs, v = w)
    (j : Nat) (hj0 : 0 < j) (hjl : j + 1 < evs.length) :
    ∀ m, (cdStates evs m).2.getD j 0 = 0 := by
  intro m
  induction m with
  | zero =>
    show (List.replicate evs.length (0 : WithTop ℚ)).getD j 0 = 0
    exact getD_replicate_zero _ _
  | succ k ih =>
    have hord := cd_const_ord evs hid (k + 1)
    have hord_len := cdStates_ord_length evs (k + 1)
    have hgj : ((cdStates evs (k + 1)).1).getD j 0 = j := by
      rw [hord, getD_of_lt _ _ _ (by rw [List.length_range]; omega), List.getElem_range]
    have hhit := cdInteriorFold_getD_hit evs k ((cdStates evs (k + 1)).1)
      (cdStates_ord_nodup evs (k + 1)) j (by omega) (by omega)
      (List.range ((cdStates evs (k + 1)).1).length)
      (cdSetExtremes ((cdStates evs k).2) ((cdStates evs (k + 1)).1))
      (List.nodup_range _) (List.mem_range.mpr (by omega))
      (by rw [cdSetExtremes_length, cdStates_cds_length, hgj]; omega)
    rw [hgj] at hhit
    rw [cdPass_cds_eq, hhit]
    have hse : (cdSetExtremes ((cdStates evs k).2) ((cdStates evs (k + 1)).1)).getD j 0 =
        (cdStates evs k).2.getD j 0 := by
      apply cdSetExtremes_getD_other
      · rw [hord, getD_of_lt _ _ _ (by rw [List.length_range]; omega), List.getElem_range]
        omega
      · rw [hord, List.length_range,
          getD_of_lt _ _ _ (by rw [List.length_range]; omega), List.getElem_range]
        omega
    rw [hse, ih]
    have h1 : ((cdStates evs (k + 1)).1).getD (j + 1) 0 = j + 1 := by
      rw [hord, getD_of_lt _ _ _ (by rw [List.length_range]; omega), List.getElem_range]
    have h2 : ((cdStates evs (k + 1)).1).getD (j - 1) 0 = j - 1 := by
      rw [hord, getD_of_lt _ _ _ (by rw [List.length_range]; omega), List.getElem_range]
    rw [h1, h2]
    have heq : evs.getD (j + 1) [] = evs.getD (j - 1) [] := by
      apply hid
      · rw [getD_of_lt _ _ _ (show j + 1 < evs.length by omega)]
        exact List.getElem_mem (show j + 1 < evs.length by omega)
      · rw [getD_of_lt _ _ _ (show j - 1 < evs.length by omega)]
        exact List.getElem_mem (show j - 1 < evs.length by omega)
    unfold evAt
    rw [heq]
    norm_num

/-- Claim C5: after crowdingDistance on a non-empty snapshot, for every
objective there is a minimal and a maximal element in that objective whose
final distance is Infinity (the two elements at the extremes of that
objective's ranking copy); every element that stays interior in every
objective pass ends with the sum over objectives of (next neighbour's value
minus previous neighbour's value) in that pass's ascending order; and when
all elements share one evaluation vector, every interior element (in the
unchanged order every pass keeps) ends with distance 0. -/
theorem claim_C5 (evs : List (List ℚ)) (count : Nat) (hn : 0 < evs.length) :
    (∀ k < count, ∃ imin imax,
      imin < evs.length ∧ imax < evs.length ∧
      (∀ m < evs.length, evAt evs imin k ≤ evAt evs m k) ∧
      (∀ m < evs.length, evAt evs m k ≤ evAt evs imax k) ∧
      (crowdingDistanceAux evs count).getD imin 0 = ⊤ ∧
      (crowdingDistanceAux evs count).getD imax 0 = ⊤) ∧
    (∀ i < evs.length,
      (∀ k < count, 1 ≤ cdPosOf evs k i ∧ cdPosOf evs k i < evs.length - 1) →
      (crowdingDistanceAux evs count).getD i 0 =
        ((∑ k ∈ Finset.range count, cdDiff evs k i : ℚ) : WithTop ℚ)) ∧
    ((∀ v ∈ evs, ∀ w ∈ evs, v = w) →
      ∀ j, 0 < j → j + 1 < evs.length → (crowdingDistanceAux evs count).getD j 0 = 0) := by
  refine ⟨?_, ?_, ?_⟩
  · intro k hk
    have hlen := cdStates_ord_length evs (k + 1)
    have h0 : (0 : Nat) < ((cdStates evs (k + 1)).1).length := by omega
    have hl : ((cdStates evs (k + 1)).1).length - 1 < ((cdStates evs (k + 1)).1).length := by
      omega
    refine ⟨((cdStates evs (k + 1)).1).getD 0 0,
      ((cdStates evs (k + 1)).1).getD (((cdStates evs (k + 1)).1).length - 1) 0,
      cdStates_ord_mem_lt evs (k + 1) 0 h0, cdStates_ord_mem_lt evs (k + 1) _ hl,
      cdPass_head_min evs k hn, cdPass_last_max evs k hn,
      (cd_extreme_top evs count hn k hk).1, (cd_extreme_top evs count hn k hk).2⟩
  · intro i hi hint
    exact cd_interior_sum evs i hi count hint
  · intro hid j hj0 hjl
    exact cd_const_interior evs hid j hj0 hjl count

/-- Claim C5 witness: a three-element snapshot with two objectives, via the
main theorem. -/
theorem claim_C5_witness :
    (∀ k < 2, ∃ imin imax,
      imin < evsC5.length ∧ imax < evsC5.length ∧
      (∀ m < evsC5.length, evAt evsC5 imin k ≤ evAt evsC5 m k) ∧
      (∀ m < evsC5.length, evAt evsC5 m k ≤ evAt evsC5 imax k) ∧
      (crowdingDistanceAux evsC5 2).getD imin 0 = ⊤ ∧
      (crowdingDistanceAux evsC5 2).getD imax 0 = ⊤) ∧
    (∀ i < evsC5.length,
      (∀ k < 2, 1 ≤ cdPosOf evsC5 k i ∧ cdPosOf evsC5 k i < evsC5.length - 1) →
      (crowdingDistanceAux evsC5 2).getD i 0 =
        ((∑ k ∈ Finset.range 2, cdDiff evsC5 k i : ℚ) : WithTop ℚ)) ∧
    ((∀ v ∈ evsC5, ∀ w ∈ evsC5, v = w) →
      ∀ j, 0 < j → j + 1 < evsC5.length → (crowdingDistanceAux evsC5 2).getD j 0 = 0) :=
  claim_C5 evsC5 2 (by norm_num [evsC5])

theorem mapIdx_getD (f : Nat → ℚ → ℚ) (l : List ℚ) (i : Nat) (h : i < l.length) :
    (List.mapIdx f l).getD i 0 = f i (l.getD i 0) := by
  rw [getD_of_lt _ _ _ (show i < (List.mapIdx f l).length by rw [List.length_mapIdx]; exact h),
    getD_of_lt _ _ _ h]
  exact List.getElem_mapIdx

/-- Claim C6: nextVelocity draws exactly two fresh scalar coefficients (the
random cursor advances by exactly 2), one in [0, localAcceleration) and one
in [0, globalAcceleration) for positive accelerations and unit draws in
[0, 1); each coefficient is applied uniformly to every dimension, the
returned velocity being componentwise velocity x inertia + localCoef x
(localBest - position) + globalCoef x (globalBest - position); and
nextElement sets the candidate position to position + velocity, clamped per
dimension to [0, cardinality - 1]. -/
theorem claim_C6 (ps : PS) (rng : Nat) (elem : PElem) (gb : Part)
    (hu : ∀ n, 0 ≤ ps.u n ∧ ps.u n < 1)
    (hla : 0 < ps.localAcceleration) (hga : 0 < ps.globalAcceleration) :
    (0 ≤ ps.u rng * ps.localAcceleration ∧
      ps.u rng * ps.localAcceleration < ps.localAcceleration) ∧
    (0 ≤ ps.u (rng + 1) * ps.globalAcceleration ∧
      ps.u (rng + 1) * ps.globalAcceleration < ps.globalAcceleration) ∧
    (ps.nextVelocity rng elem gb).2 = rng + 2 ∧
    (ps.nextVelocity rng elem gb).1.length = elem.values.length ∧
    (∀ i, i < elem.values.length →
      (ps.nextVelocity rng elem gb).1.getD i 0 =
        elem.velocity.getD i 0 * ps.inertia +
        (ps.u rng * ps.localAcceleration) *
          (elem.localBest.values.getD i 0 - elem.values.getD i 0) +
        (ps.u (rng + 1) * ps.globalAcceleration) *
          (gb.values.getD i 0 - elem.values.getD i 0)) ∧
    (ps.nextElement rng elem gb).2 = rng + 2 ∧
    (∀ i, i < elem.values.length →
      (ps.nextElement rng elem gb).1.values.getD i 0 =
        clamp (elem.values.getD i 0 + (ps.nextVelocity rng elem gb).1.getD i 0) 0
          (ps.model.getD i 0 - 1)) := by
  refine ⟨⟨mul_nonneg (hu rng).1 (le_of_lt hla), ?_⟩,
    ⟨mul_nonneg (hu (rng + 1)).1 (le_of_lt hga), ?_⟩, rfl, ?_, ?_, rfl, ?_⟩
  · calc ps.u rng * ps.localAcceleration < 1 * ps.localAcceleration :=
        mul_lt_mul_of_pos_right (hu rng).2 hla
      _ = ps.localAcceleration := one_mul _
  · calc ps.u (rng + 1) * ps.globalAcceleration < 1 * ps.globalAcceleration :=
        mul_lt_mul_of_pos_right (hu (rng + 1)).2 hga
      _ = ps.globalAcceleration := one_mul _
  · unfold PS.nextVelocity
    dsimp only
    exact List.length_mapIdx
  · intro i hi
    unfold PS.nextVelocity
    dsimp only
    rw [mapIdx_getD _ _ _ hi]
  · intro i hi
    unfold PS.nextElement
    dsimp only
    rw [mapIdx_getD _ _ _ hi]

/-- Claim C6 witness: a concrete two-dimensional particle with unit draws
equal to one half and accelerations one half, via the main theorem. -/
theorem claim_C6_witness :
    (0 ≤ psC6.u 0 * psC6.localAcceleration ∧
      psC6.u 0 * psC6.localAcceleration < psC6.localAcceleration) ∧
    (0 ≤ psC6.u 1 * psC6.globalAcceleration ∧
      psC6.u 1 * psC6.globalAcceleration < psC6.globalAcceleration) ∧
    (psC6.nextVelocity 0 elemC6 gbC6).2 = 0 + 2 ∧
    (psC6.nextVelocity 0 elemC6 gbC6).1.length = elemC6.values.length ∧
    (∀ i, i < elemC6.values.length →
      (psC6.nextVelocity 0 elemC6 gbC6).1.getD i 0 =
        elemC6.velocity.getD i 0 * psC6.inertia +
        (psC6.u 0 * psC6.localAcceleration) *
          (elemC6.localBest.values.getD i 0 - elemC6.values.getD i 0) +
        (psC6.u (0 + 1) * psC6.globalAcceleration) *
          (gbC6.values.getD i 0 - elemC6.values.getD i 0)) ∧
    (psC6.nextElement 0 elemC6 gbC6).2 = 0 + 2 ∧
    (∀ i, i < elemC6.values.length →
      (psC6.nextElement 0 elemC6 gbC6).1.values.getD i 0 =
        clamp (elemC6.values.getD i 0 + (psC6.nextVelocity 0 elemC6 gbC6).1.getD i 0) 0
          (psC6.model.getD i 0 - 1)) :=
  claim_C6 psC6 0 elemC6 gbC6
    (fun _ => ⟨by norm_num [psC6], by norm_num [psC6]⟩)
    (by norm_num [psC6]) (by norm_num [psC6])

theorem nextElemsAux_length (ps : PS) (gb : Part) :
    ∀ (l : List PElem) (rng : Nat), (nextElemsAux ps gb rng l).1.length = l.length := by
  intro l
  induction l with
  | nil => intro rng; rfl
  | cons x xs ih =>
    intro rng
    unfold nextElemsAux
    dsimp only
    rw [List.length_cons, ih, List.length_cons]

theorem paretoStep_length (dom : α → α → Int) (ps : List ParetoSets)
    (pq : (Nat × α) × (Nat × α)) : (paretoStep dom ps pq).length = ps.length := by
  unfold paretoStep
  dsimp only
  split
  · rw [pushDominator_length, pushDominated_length]
  · split
    · rw [pushDominator_length, pushDominated_length]
    · rfl

theorem paretoFold_length (dom : α → α → Int) :
    ∀ (L : List ((Nat × α) × (Nat × α))) (ps : List ParetoSets),
      (L.foldl (paretoStep dom) ps).length = ps.length := by
  intro L
  induction L with
  | nil => intro ps; rfl
  | cons p ls ih =>
    intro ps
    rw [List.foldl_cons, ih, paretoStep_length]

theorem paretoAnalysis_length (dom : α → α → Int) (l : List α) :
    (paretoAnalysis dom l).length = l.length := by
  unfold paretoAnalysis
  rw [paretoFold_length, List.length_replicate]

theorem nonDominatedSortAnn_length (dom : α → α → Int) (evalOf : α → List ℚ) (count : Nat)
    (l : List α) : (nonDominatedSortAnn dom evalOf count l).length = l.length := by
  unfold nonDominatedSortAnn
  dsimp only
  rw [(List.perm_insertionSort _ _).length_eq, List.length_zip, List.length_zip,
    paretoAnalysis_length]
  have h2 : (crowdingDistanceAux (l.map evalOf) count).length = l.length := by
    show ((cdStates (l.map evalOf) count).2).length = l.length
    rw [cdStates_cds_length, List.length_map]
  rw [h2]
  omega

theorem sortElemsPS_length (ps : PS) (l : List PElem) : (ps.sortElems l).length = l.length := by
  unfold PS.sortElems
  split
  · rw [List.length_map, nonDominatedSortAnn_length]
  · rw [List.length_reverse, (List.perm_insertionSort _ _).length_eq]

/-- Claim C7: the particle-swarm update replaces the population with exactly
one new element per current element (no expand, no sieve is involved in its
definition), so the length is preserved; and the stored global best is
replaced by the new best element exactly when the problem comparator says the
new best beats the previous global best, otherwise it is kept. -/
theorem claim_C7 (ps : PS) (hne : ps.state ≠ []) :
    (ps.update).state.length = ps.state.length ∧
    (ps.update).globalBest =
      some (if ps.problem.compare (ps.globalBest.getD ((ps.state.headD default).toPart))
              (((ps.update).state.headD default).toPart) < 0 then
          ((ps.update).state.headD default).toPart
        else ps.globalBest.getD ((ps.state.headD default).toPart)) := by
  constructor
  · show (ps.sortElems (nextElemsAux ps _ ps.rng ps.state).1).length = ps.state.length
    rw [sortElemsPS_length, nextElemsAux_length]
  · unfold PS.update
    dsimp only
    cases hg : ps.globalBest with
    | none => rfl
    | some g => rfl

/-- Claim C7 witness: a one-particle swarm; the update keeps the population
size at 1 and stores the comparator-selected global best, via the main
theorem. -/
theorem claim_C7_witness :
    (psC7.update).state.length = psC7.state.length ∧
    (psC7.update).globalBest =
      some (if psC7.problem.compare (psC7.globalBest.getD ((psC7.state.headD default).toPart))
              (((psC7.update).state.headD default).toPart) < 0 then
          ((psC7.update).state.headD default).toPart
        else psC7.globalBest.getD ((psC7.state.headD default).toPart)) :=
  claim_C7 psC7 (by simp [psC7])

end Inveniemus
